import Mathlib

/-!
Verification of the stratum-pool-sha256 core against its specification.

The definitions below are shallow embeddings of the JavaScript source:

* `lib/jobManager.js` — `JobCounter`, `ExtraNonceCounter`, the ASICBoost
  version validation and the low-difficulty branch of `processShare`;
* `lib/blockTemplate.js` — `serializeHeader`, `registerSubmit`;
* `lib/merkleTree.js` — `calculateSteps` / `withFirst`;
* `lib/util.js` — hex/byte packing, `bufferToCompactBits`,
  `bignumFromBitsBuffer`;
* `lib/varDiff.js` — `RingBuffer` and the retarget logic of `manageClient`.

Buffers are modelled as `List Nat` of byte values, JavaScript numbers that
hold integers as `Nat`/`Int` (with explicit `% 2^32` truncation where the JS
bitwise operators apply `ToInt32`/`ToUint32`), and the floating-point
difficulty values of the vardiff controller as `ℚ`.
-/

namespace StratumPool

/-! ## Hex and byte helpers (lib/util.js packing, Buffer hex codec) -/

/-- Value of one hexadecimal digit, as `parseInt(…, 16)` and `Buffer.from(…,
'hex')` interpret it.  Non-hex characters do not appear in the strings the
pipeline feeds in (they are syntax-checked upstream); they map to 0. -/
def hexDigitVal (c : Char) : Nat :=
  if '0' ≤ c ∧ c ≤ '9' then c.toNat - '0'.toNat
  else if 'a' ≤ c ∧ c ≤ 'f' then c.toNat - 'a'.toNat + 10
  else if 'A' ≤ c ∧ c ≤ 'F' then c.toNat - 'A'.toNat + 10
  else 0

/-- `parseInt(s, 16)` on a string of hex digits (the code only applies it to
syntax-checked hex strings, or to the decimal rendering of a number, whose
digits are also valid hex digits). -/
def parseHexJS (s : String) : Nat :=
  s.data.foldl (fun a c => a * 16 + hexDigitVal c) 0

/-- `Buffer.from(s, 'hex')`: decode consecutive digit pairs into bytes. -/
def hexToBytes : List Char → List Nat
  | c1 :: c2 :: rest => (hexDigitVal c1 * 16 + hexDigitVal c2) :: hexToBytes rest
  | _ => []

/-- Bytes of `buff.writeUInt32LE(n)` (lib/util.js `packUInt32LE`). -/
def uint32LE (n : Nat) : List Nat :=
  [n % 256, n / 256 % 256, n / 65536 % 256, n / 16777216 % 256]

/-- Bytes of `buff.writeUInt32BE(n)` (lib/util.js `packUInt32BE`). -/
def uint32BE (n : Nat) : List Nat :=
  [n / 16777216 % 256, n / 65536 % 256, n / 256 % 256, n % 256]

/-- Lower-case hex character of a nibble, as Node's `buf.toString('hex')`
renders it. -/
def hexChar (n : Nat) : Char :=
  if n < 10 then Char.ofNat (48 + n) else Char.ofNat (87 + n)

/-- `buf.toString('hex')`: two lower-case hex characters per byte. -/
def bytesToHex (bs : List Nat) : String :=
  ⟨(bs.map (fun b => [hexChar (b / 16), hexChar (b % 16)])).flatten⟩

/-! ## JobCounter (lib/jobManager.js lines 47–72)

```js
var counter = 0;
this.next = function(){
    counter++;
    if (counter % 0xffff === 0)
        counter = 1;
    return this.cur();
};
```
The returned job id is the counter value (rendered in lowercase hex on the
wire; the rendering is injective below `2^16`, so distinctness of the numbers
is distinctness of the ids). -/

/-- One `next()` call: the new counter value, which is also the returned id. -/
def jobCounterNext (counter : Nat) : Nat :=
  if (counter + 1) % 65535 = 0 then 1 else counter + 1

/-- Counter value after `k` successive `next()` calls starting from state
`s`. -/
def jobCounterState (s k : Nat) : Nat :=
  jobCounterNext^[k] s

theorem jobCounterState_succ (s k : Nat) :
    jobCounterState s (k + 1) = jobCounterNext (jobCounterState s k) := by
  unfold jobCounterState
  rw [Function.iterate_succ_apply']

/-- Closed form of the counter: starting from any reachable state
`s ≤ 65534`, after `k ≥ 1` calls the counter holds `(s + k - 1) % 65534 + 1`. -/
theorem jobCounterState_closed (s : Nat) (hs : s ≤ 65534) :
    ∀ k, 1 ≤ k → jobCounterState s k = (s + k - 1) % 65534 + 1 := by
  intro k
  induction k with
  | zero => omega
  | succ n ih =>
    intro _
    rcases Nat.eq_zero_or_pos n with hn | hn
    · subst hn
      have h0 : jobCounterState s 0 = s := rfl
      rw [jobCounterState_succ, h0]
      unfold jobCounterNext
      have h65534 : s % 65534 = s ∨ s = 65534 := by
        rcases Nat.lt_or_ge s 65534 with h | h
        · exact Or.inl (Nat.mod_eq_of_lt h)
        · exact Or.inr (by omega)
      rcases h65534 with h | h
      · have hlt : s + 1 < 65535 := by omega
        rw [if_neg (by omega)]
        omega
      · subst h
        norm_num
    · have hst := jobCounterState_succ s n
      rw [hst, ih hn]
      unfold jobCounterNext
      have hmod : (s + n - 1) % 65534 < 65534 := Nat.mod_lt _ (by norm_num)
      by_cases hwrap : (s + n - 1) % 65534 + 1 + 1 = 65535
      · rw [if_pos (by omega)]
        have : (s + n - 1) % 65534 = 65533 := by omega
        have h2 : (s + n) % 65534 = 0 := by omega
        omega
      · have hlt : (s + n - 1) % 65534 + 1 + 1 < 65535 := by omega
        rw [if_neg (by omega)]
        have : (s + n) % 65534 = (s + n - 1) % 65534 + 1 := by omega
        omega

/-! ## ExtraNonceCounter (lib/jobManager.js lines 22–39)

```js
var instanceId = configInstanceId || crypto.randomBytes(4).readUInt32LE(0);
var counter = instanceId << 27;
this.next = function(){
    var extraNonce = util.packUInt32BE(Math.abs(counter++));
    return extraNonce.toString('hex');
};
```
`<<` applies JavaScript `ToInt32`, so the seed is the signed 32-bit value of
`instanceId * 2^27`; the counter then grows as an ordinary (unbounded)
number and each call packs `Math.abs` of it big-endian. -/

/-- JavaScript `ToInt32`: reduce mod `2^32` and reinterpret as signed. -/
def toInt32 (n : Nat) : Int :=
  let u := n % 4294967296
  if u < 2147483648 then (u : Int) else (u : Int) - 4294967296

/-- The counter's seed, `instanceId << 27` under JS 32-bit semantics. -/
def extraNonceSeed (instanceId : Nat) : Int :=
  toInt32 (instanceId * 134217728)

/-- `Math.abs(counter)` at the `k`-th call (0-indexed) after construction. -/
def extraNonceValue (instanceId k : Nat) : Nat :=
  (extraNonceSeed instanceId + k).natAbs

/-- The hex-encoded extranonce1 handed out at the `k`-th call. -/
def extraNonce1Hex (instanceId k : Nat) : String :=
  bytesToHex (uint32BE (extraNonceValue instanceId k))

theorem extraNonceSeed_eq (instanceId : Nat) :
    extraNonceSeed instanceId =
      if instanceId % 32 < 16 then ((instanceId % 32 * 134217728 : Nat) : Int)
      else ((instanceId % 32 * 134217728 : Nat) : Int) - 4294967296 := by
  unfold extraNonceSeed toInt32
  have hmod : instanceId * 134217728 % 4294967296 = instanceId % 32 * 134217728 := by
    calc instanceId * 134217728 % 4294967296
        = instanceId * 134217728 % (32 * 134217728) := by norm_num
      _ = instanceId % 32 * 134217728 := by
          rw [Nat.mul_mod_mul_right]
  simp only [hmod]
  have hcond : instanceId % 32 * 134217728 < 2147483648 ↔ instanceId % 32 < 16 := by
    omega
  by_cases h : instanceId % 32 < 16
  · rw [if_pos (hcond.mpr h), if_pos h]
  · rw [if_neg (fun hc => h (hcond.mp hc)), if_neg h]

/-- Within the `2^27`-call window, `Math.abs` of the counter has an explicit
closed form: the seed is a multiple of `2^27`, so the whole window is on one
side of zero. -/
theorem extraNonceValue_eq (instanceId k : Nat) (hk : k < 134217728) :
    extraNonceValue instanceId k =
      if instanceId % 32 < 16 then instanceId % 32 * 134217728 + k
      else (32 - instanceId % 32) * 134217728 - k := by
  unfold extraNonceValue
  rw [extraNonceSeed_eq]
  have hm : instanceId % 32 < 32 := Nat.mod_lt _ (by norm_num)
  by_cases h : instanceId % 32 < 16
  · rw [if_pos h, if_pos h]
    omega
  · rw [if_neg h, if_neg h]
    omega

theorem extraNonceValue_lt (instanceId k : Nat) (hk : k < 134217728) :
    extraNonceValue instanceId k < 4294967296 := by
  rw [extraNonceValue_eq instanceId k hk]
  have hm : instanceId % 32 < 32 := Nat.mod_lt _ (by norm_num)
  by_cases h : instanceId % 32 < 16
  · rw [if_pos h]; nlinarith
  · rw [if_neg h]
    have : (32 - instanceId % 32) * 134217728 ≤ 16 * 134217728 := by
      have : 32 - instanceId % 32 ≤ 16 := by omega
      nlinarith
    omega

/-- Auxiliary injectivity of the nibble-to-character table, checked by
enumeration. -/
theorem hexChar_inj_fin : ∀ x y : Fin 16, hexChar x.val = hexChar y.val → x = y := by
  decide

theorem hexChar_inj {a b : Nat} (ha : a < 16) (hb : b < 16)
    (h : hexChar a = hexChar b) : a = b := by
  have := hexChar_inj_fin ⟨a, ha⟩ ⟨b, hb⟩ h
  exact congrArg Fin.val this

/-- `packUInt32BE` followed by hex rendering is injective on 32-bit values. -/
theorem bytesToHex_uint32BE_inj {a b : Nat} (ha : a < 4294967296)
    (hb : b < 4294967296) (h : bytesToHex (uint32BE a) = bytesToHex (uint32BE b)) :
    a = b := by
  have hchars : (bytesToHex (uint32BE a)).data = (bytesToHex (uint32BE b)).data :=
    congrArg String.data h
  simp only [bytesToHex, uint32BE, List.map_cons, List.map_nil, List.flatten] at hchars
  simp only [List.cons_append, List.nil_append, List.cons.injEq, and_true] at hchars
  obtain ⟨h1, h2, h3, h4, h5, h6, h7, h8⟩ := hchars
  have d1 := hexChar_inj (by omega) (by omega) h1
  have d2 := hexChar_inj (by omega) (by omega) h2
  have d3 := hexChar_inj (by omega) (by omega) h3
  have d4 := hexChar_inj (by omega) (by omega) h4
  have d5 := hexChar_inj (by omega) (by omega) h5
  have d6 := hexChar_inj (by omega) (by omega) h6
  have d7 := hexChar_inj (by omega) (by omega) h7
  have d8 := hexChar_inj (by omega) (by omega) h8
  omega

/-- C7, confirmed.  For every `instance_id`, any two distinct `next()` calls
within the `2^27`-call window starting at the seed `instance_id << 27`
return different extranonce1 hex values: the seed is a multiple of `2^27`
in signed 32-bit range, so all window values share one sign, `Math.abs` is
injective on them, and 32-bit big-endian hex rendering is injective. -/
theorem C7_extranonce_unique (instanceId i j : Nat)
    (hi : i < 134217728) (hj : j < 134217728) (hij : i ≠ j) :
    extraNonce1Hex instanceId i ≠ extraNonce1Hex instanceId j := by
  intro h
  have hvi := extraNonceValue_lt instanceId i hi
  have hvj := extraNonceValue_lt instanceId j hj
  have hval : extraNonceValue instanceId i = extraNonceValue instanceId j :=
    bytesToHex_uint32BE_inj hvi hvj h
  rw [extraNonceValue_eq instanceId i hi, extraNonceValue_eq instanceId j hj] at hval
  have hm : instanceId % 32 < 32 := Nat.mod_lt _ (by norm_num)
  by_cases hcase : instanceId % 32 < 16
  · rw [if_pos hcase, if_pos hcase] at hval
    omega
  · rw [if_neg hcase, if_neg hcase] at hval
    have h16 : 16 ≤ instanceId % 32 := by omega
    have : 134217728 ≤ (32 - instanceId % 32) * 134217728 := by
      have : 1 ≤ 32 - instanceId % 32 := by omega
      nlinarith
    omega

/-- C7 witness: the theorem at `instance_id = 3`, calls 0 and 1. -/
theorem C7_extranonce_unique_witness :
    extraNonce1Hex 3 0 ≠ extraNonce1Hex 3 1 :=
  C7_extranonce_unique 3 0 1 (by norm_num) (by norm_num) (by norm_num)

/-- C6, counterexample.  Starting a fresh counter (state 0), the 1st and the
65 535th `next()` calls both return job id 1: a window of 65 535 successive
calls does repeat an id, because the counter cycles through only the 65 534
values 1..65534. -/
theorem C6_counterexample :
    jobCounterState 0 1 = 1 ∧ jobCounterState 0 65535 = 1 := by
  constructor
  · rw [jobCounterState_closed 0 (by norm_num) 1 (by norm_num)]
  · rw [jobCounterState_closed 0 (by norm_num) 65535 (by norm_num)]

/-- C6, amended.  Across any 65 534 (not 65 535) successive `next()` calls
from any reachable counter state, the returned job ids are pairwise distinct;
every returned id is nonzero and fits in 16 bits, and when the counter
reaches 0xffff it wraps to 1 (`next()` of state 65534 returns 1). -/
theorem C6_jobCounter_window_distinct (s i j : Nat) (hs : s ≤ 65534)
    (h1 : 1 ≤ i) (hij : i < j) (hwin : j < i + 65534) :
    jobCounterState s i ≠ jobCounterState s j ∧
    1 ≤ jobCounterState s i ∧ jobCounterState s i < 65536 ∧
    jobCounterNext 65534 = 1 := by
  rw [jobCounterState_closed s hs i h1, jobCounterState_closed s hs j (by omega)]
  refine ⟨?_, by omega, ?_, by unfold jobCounterNext; norm_num⟩
  · intro h
    omega
  · have := Nat.mod_lt (s + i - 1) (y := 65534) (by norm_num)
    omega

/-- C6 witness: the amended theorem at `s = 0`, `i = 1`, `j = 2`. -/
theorem C6_jobCounter_window_distinct_witness :
    jobCounterState 0 1 ≠ jobCounterState 0 2 ∧
    1 ≤ jobCounterState 0 1 ∧ jobCounterState 0 1 < 65536 ∧
    jobCounterNext 65534 = 1 :=
  C6_jobCounter_window_distinct 0 1 2 (by norm_num) (by norm_num) (by norm_num)
    (by norm_num)

/-! ## registerSubmit (lib/blockTemplate.js lines 176–183)

```js
var submits = [];
this.registerSubmit = function(extraNonce1, extraNonce2, nTime, nonce){
    var submission = extraNonce1 + extraNonce2 + nTime + nonce;
    if (submits.indexOf(submission) === -1){
        submits.push(submission);
        return true;
    }
    return false;
};
```
The per-job state is the `submits` array of concatenated keys. -/

/-- A submitted `(extranonce1, extranonce2, nTime, nonce)` 4-tuple. -/
abbrev SubmitTuple := String × String × String × String

/-- The string key the code stores: plain concatenation of the four parts. -/
def submissionKey (t : SubmitTuple) : String :=
  t.1 ++ t.2.1 ++ t.2.2.1 ++ t.2.2.2

/-- One `registerSubmit` call: result and updated `submits` array. -/
def registerSubmit (submits : List String) (t : SubmitTuple) :
    Bool × List String :=
  if submissionKey t ∈ submits then (false, submits)
  else (true, submits ++ [submissionKey t])

/-- The results of a sequence of `registerSubmit` calls on one job. -/
def runSubmits (submits : List String) : List SubmitTuple → List Bool
  | [] => []
  | t :: ts => (registerSubmit submits t).1 :: runSubmits (registerSubmit submits t).2 ts

/-- The `submits` array after a sequence of calls. -/
def submitsAfter (submits : List String) : List SubmitTuple → List String
  | [] => submits
  | t :: ts => submitsAfter (registerSubmit submits t).2 ts

theorem mem_registerSubmit_snd (submits : List String) (t : SubmitTuple)
    (s : String) :
    s ∈ (registerSubmit submits t).2 ↔ s ∈ submits ∨ s = submissionKey t := by
  unfold registerSubmit
  by_cases h : submissionKey t ∈ submits
  · rw [if_pos h]
    constructor
    · exact Or.inl
    · rintro (hs | rfl)
      · exact hs
      · exact h
  · rw [if_neg h]
    simp

theorem mem_submitsAfter (submits : List String) (ts : List SubmitTuple)
    (s : String) :
    s ∈ submitsAfter submits ts ↔ s ∈ submits ∨ s ∈ ts.map submissionKey := by
  induction ts generalizing submits with
  | nil => simp [submitsAfter]
  | cons t ts ih =>
    unfold submitsAfter
    rw [ih, mem_registerSubmit_snd]
    simp only [List.map_cons, List.mem_cons]
    tauto

theorem runSubmits_length (submits : List String) (ts : List SubmitTuple) :
    (runSubmits submits ts).length = ts.length := by
  induction ts generalizing submits with
  | nil => rfl
  | cons t ts ih => simp [runSubmits, ih]

theorem runSubmits_append (submits : List String) (pre ts : List SubmitTuple) :
    runSubmits submits (pre ++ ts) =
      runSubmits submits pre ++ runSubmits (submitsAfter submits pre) ts := by
  induction pre generalizing submits with
  | nil => rfl
  | cons t pre ih => simp [runSubmits, submitsAfter, ih]

/-- C5, counterexample.  `register_submit` keys submissions by plain string
concatenation, so the two distinct 4-tuples `("a","b","c","d")` and
`("ab","","c","d")` collide: on a fresh job the first call returns `true`
but the second — a first occurrence of a distinct tuple, which the claim
says is always accepted — returns `false`. -/
theorem C5_counterexample :
    runSubmits [] [("a", "b", "c", "d"), ("ab", "", "c", "d")] = [true, false] ∧
    (("a", "b", "c", "d") : SubmitTuple) ≠ ("ab", "", "c", "d") := by
  constructor
  · rfl
  · decide

/-- C5, amended.  For a fixed job, `register_submit` returns `true` on the
first occurrence of a 4-tuple and `false` on every later submission of it,
for arbitrary interleaving, and the seen-set never shrinks — provided the
concatenated keys of earlier tuples collide with the tuple's key only on the
equal tuple (guaranteed in the share pipeline, where all four components have
fixed widths). -/
theorem C5_register_submit_dedup (pre : List SubmitTuple) (t : SubmitTuple)
    (post : List SubmitTuple)
    (hinj : ∀ u ∈ pre, submissionKey u = submissionKey t → u = t) :
    (((runSubmits [] (pre ++ t :: post)).drop pre.length).head? = some true
      ↔ t ∉ pre) ∧
    (∀ s ∈ submitsAfter [] pre, s ∈ submitsAfter [] (pre ++ t :: post)) := by
  constructor
  · rw [runSubmits_append, List.drop_left' (runSubmits_length [] pre)]
    unfold runSubmits registerSubmit
    by_cases h : submissionKey t ∈ submitsAfter [] pre
    · rw [if_pos h]
      simp only [List.head?_cons, Option.some.injEq]
      rw [mem_submitsAfter] at h
      simp only [List.not_mem_nil, false_or, List.mem_map] at h
      obtain ⟨u, hu, hku⟩ := h
      have := hinj u hu hku
      subst this
      simp [hu]
    · rw [if_neg h]
      simp only [List.head?_cons, Option.some.injEq, true_iff]
      intro hmem
      exact h ((mem_submitsAfter [] pre (submissionKey t)).mpr
        (Or.inr (List.mem_map_of_mem submissionKey hmem)))
  · intro s hs
    rw [mem_submitsAfter] at hs ⊢
    rcases hs with h | h
    · exact Or.inl h
    · right
      rw [List.map_append]
      exact List.mem_append_left _ h

/-- C5 witness: the amended theorem with one unrelated prior tuple. -/
theorem C5_register_submit_dedup_witness :
    (((runSubmits [] ([("aa", "bb", "cc", "dd")] ++
        ("ee", "ff", "gg", "hh") :: [])).drop 1).head? = some true
      ↔ ("ee", "ff", "gg", "hh") ∉ [(("aa", "bb", "cc", "dd") : SubmitTuple)]) ∧
    (∀ s ∈ submitsAfter [] [(("aa", "bb", "cc", "dd") : SubmitTuple)],
      s ∈ submitsAfter [] ([("aa", "bb", "cc", "dd")] ++
        ("ee", "ff", "gg", "hh") :: [])) :=
  C5_register_submit_dedup [("aa", "bb", "cc", "dd")] ("ee", "ff", "gg", "hh") []
    (by decide)

/-! ## serializeHeader (lib/blockTemplate.js lines 126–141)

```js
var header =  Buffer.alloc(80);
var position = 0;
header.writeUInt32LE(version || rpcData.version, position);
header.write(rpcData.previousblockhash, position += 4, 32, 'hex');
header.write(merkleRoot, position += 32, 32, 'hex');
header.writeUInt32LE(parseInt(nTime, 16), position += 32);
header.write(rpcData.bits, position += 4, 4, 'hex');
header.writeUInt32LE(parseInt(nonce, 16), position += 4);
return header;
```
-/

/-- In-place write of `data` into `buf` at byte offset `pos`
(`Buffer.write` / `Buffer.writeUInt32LE` on a large-enough buffer). -/
def writeBytes (buf : List Nat) (pos : Nat) (data : List Nat) : List Nat :=
  buf.take pos ++ data ++ buf.drop (pos + data.length)

/-- `header.write(s, pos, cap, 'hex')`: decode the hex string and write at
most `cap` bytes of it at `pos`. -/
def bufWriteHex (buf : List Nat) (s : String) (pos cap : Nat) : List Nat :=
  writeBytes buf pos ((hexToBytes s.data).take cap)

/-- `header.writeUInt32LE(n, pos)`. -/
def bufWriteUInt32LE (buf : List Nat) (n pos : Nat) : List Nat :=
  writeBytes buf pos (uint32LE n)

/-- `version || rpcData.version`: the version actually written, falling back
to the template version when the caller's value is absent *or zero*
(JavaScript falsiness). -/
def resolveVersion (version : Option Nat) (tmplVersion : Nat) : Nat :=
  match version with
  | some w => if w = 0 then tmplVersion else w
  | none => tmplVersion

/-- `BlockTemplate.serializeHeader`. -/
def serializeHeader (prevhash bits : String) (tmplVersion : Nat)
    (merkleRoot nTime nonce : String) (version : Option Nat) : List Nat :=
  let v := resolveVersion version tmplVersion
  let h1 := bufWriteUInt32LE (List.replicate 80 0) v 0
  let h2 := bufWriteHex h1 prevhash 4 32
  let h3 := bufWriteHex h2 merkleRoot 36 32
  let h4 := bufWriteUInt32LE h3 (parseHexJS nTime) 68
  let h5 := bufWriteHex h4 bits 72 4
  bufWriteUInt32LE h5 (parseHexJS nonce) 76

theorem writeBytes_exact (p rest data : List Nat) (pos : Nat)
    (hp : p.length = pos) :
    writeBytes (p ++ rest) pos data = p ++ (data ++ rest.drop data.length) := by
  subst hp
  unfold writeBytes
  rw [List.take_left, List.append_assoc]
  congr 2
  rw [← List.drop_drop, List.drop_left]

/-- The header layout as a plain concatenation of its six fields. -/
theorem serializeHeader_concat (prevhash bits merkleRoot nTime nonce : String)
    (tmplVersion : Nat) (version : Option Nat)
    (hpb : (hexToBytes prevhash.data).length = 32)
    (hmr : (hexToBytes merkleRoot.data).length = 32)
    (hbits : (hexToBytes bits.data).length = 4) :
    serializeHeader prevhash bits tmplVersion merkleRoot nTime nonce version =
      uint32LE (resolveVersion version tmplVersion) ++
      hexToBytes prevhash.data ++ hexToBytes merkleRoot.data ++
      uint32LE (parseHexJS nTime) ++ hexToBytes bits.data ++
      uint32LE (parseHexJS nonce) := by
  set v := resolveVersion version tmplVersion with hv
  have hulen : ∀ n : Nat, (uint32LE n).length = 4 := fun n => rfl
  have htake : ∀ (l : List Nat) (n : Nat), l.length = n → l.take n = l := by
    intro l n h
    rw [← h, List.take_length]
  unfold serializeHeader bufWriteUInt32LE bufWriteHex
  rw [htake _ _ hpb, htake _ _ hmr, htake _ _ hbits, ← hv]
  dsimp only
  have e1 : writeBytes (List.replicate 80 0) 0 (uint32LE v) =
      uint32LE v ++ List.replicate 76 0 := by
    have := writeBytes_exact [] (List.replicate 80 0) (uint32LE v) 0 rfl
    simpa [List.drop_replicate] using this
  rw [e1]
  have e2 : writeBytes (uint32LE v ++ List.replicate 76 0) 4
      (hexToBytes prevhash.data) =
      uint32LE v ++ (hexToBytes prevhash.data ++ List.replicate 44 0) := by
    have := writeBytes_exact (uint32LE v) (List.replicate 76 0)
      (hexToBytes prevhash.data) 4 (hulen v)
    rw [this, hpb]
    simp [List.drop_replicate]
  rw [e2, ← List.append_assoc]
  have e3 : writeBytes ((uint32LE v ++ hexToBytes prevhash.data) ++
      List.replicate 44 0) 36 (hexToBytes merkleRoot.data) =
      (uint32LE v ++ hexToBytes prevhash.data) ++
        (hexToBytes merkleRoot.data ++ List.replicate 12 0) := by
    have := writeBytes_exact (uint32LE v ++ hexToBytes prevhash.data)
      (List.replicate 44 0) (hexToBytes merkleRoot.data) 36
      (by rw [List.length_append, hulen, hpb])
    rw [this, hmr]
    simp [List.drop_replicate]
  rw [e3, ← List.append_assoc]
  have e4 : writeBytes (((uint32LE v ++ hexToBytes prevhash.data) ++
      hexToBytes merkleRoot.data) ++ List.replicate 12 0) 68
      (uint32LE (parseHexJS nTime)) =
      ((uint32LE v ++ hexToBytes prevhash.data) ++ hexToBytes merkleRoot.data) ++
        (uint32LE (parseHexJS nTime) ++ List.replicate 8 0) := by
    have := writeBytes_exact
      ((uint32LE v ++ hexToBytes prevhash.data) ++ hexToBytes merkleRoot.data)
      (List.replicate 12 0) (uint32LE (parseHexJS nTime)) 68
      (by rw [List.length_append, List.length_append, hulen, hpb, hmr])
    rw [this, hulen]
    simp [List.drop_replicate]
  rw [e4, ← List.append_assoc]
  have e5 : writeBytes ((((uint32LE v ++ hexToBytes prevhash.data) ++
      hexToBytes merkleRoot.data) ++ uint32LE (parseHexJS nTime)) ++
      List.replicate 8 0) 72 (hexToBytes bits.data) =
      (((uint32LE v ++ hexToBytes prevhash.data) ++ hexToBytes merkleRoot.data) ++
        uint32LE (parseHexJS nTime)) ++
        (hexToBytes bits.data ++ List.replicate 4 0) := by
    have := writeBytes_exact
      (((uint32LE v ++ hexToBytes prevhash.data) ++ hexToBytes merkleRoot.data) ++
        uint32LE (parseHexJS nTime))
      (List.replicate 8 0) (hexToBytes bits.data) 72
      (by simp only [List.length_append, hulen, hpb, hmr])
    rw [this, hbits]
    simp [List.drop_replicate]
  rw [e5, ← List.append_assoc]
  have e6 : writeBytes (((((uint32LE v ++ hexToBytes prevhash.data) ++
      hexToBytes merkleRoot.data) ++ uint32LE (parseHexJS nTime)) ++
      hexToBytes bits.data) ++ List.replicate 4 0) 76
      (uint32LE (parseHexJS nonce)) =
      ((((uint32LE v ++ hexToBytes prevhash.data) ++ hexToBytes merkleRoot.data) ++
        uint32LE (parseHexJS nTime)) ++ hexToBytes bits.data) ++
        (uint32LE (parseHexJS nonce) ++ []) := by
    have := writeBytes_exact
      ((((uint32LE v ++ hexToBytes prevhash.data) ++ hexToBytes merkleRoot.data) ++
        uint32LE (parseHexJS nTime)) ++ hexToBytes bits.data)
      (List.replicate 4 0) (uint32LE (parseHexJS nonce)) 76
      (by simp only [List.length_append, hulen, hpb, hmr, hbits])
    rw [this, hulen]
    simp
  rw [e6]
  simp [List.append_assoc]

theorem uint32LE_length (n : Nat) : (uint32LE n).length = 4 := rfl

/-- C2, counterexample.  `serializeHeader` computes `version ||
rpcData.version`, so a caller-supplied version of 0 is replaced by the
template version: with template version 2, the first four header bytes are
`02 00 00 00`, not the little-endian encoding of the caller's 0 that the
claim requires. -/
theorem C2_counterexample :
    (serializeHeader
      "0000000000000000000000000000000000000000000000000000000000000000"
      "1d00ffff" 2
      "0000000000000000000000000000000000000000000000000000000000000000"
      "504e86ed" "b2957c02" (some 0)).take 4 = uint32LE 2 ∧
    uint32LE 2 ≠ uint32LE 0 := by
  constructor
  · rfl
  · decide

/-- C2, amended.  For every merkle-root hex string, nTime hex, nonce hex and
32-bit version, `serialize_header` returns exactly 80 bytes laid out as
`version_LE(4) ‖ prev_hash(32) ‖ merkle_root(32) ‖ n_time_LE(4) ‖ bits(4) ‖
nonce_LE(4)`, with the fields at byte offsets {0, 4, 36, 68, 72, 76} — where
the version written is the caller-supplied value, falling back to the
template's version when none is given *or the supplied value is 0*
(JavaScript `version || rpcData.version`). -/
theorem C2_serialize_header_layout (prevhash bits merkleRoot nTime nonce : String)
    (tmplVersion : Nat) (version : Option Nat)
    (hpb : (hexToBytes prevhash.data).length = 32)
    (hmr : (hexToBytes merkleRoot.data).length = 32)
    (hbits : (hexToBytes bits.data).length = 4) :
    (serializeHeader prevhash bits tmplVersion merkleRoot nTime nonce
        version).length = 80 ∧
    (serializeHeader prevhash bits tmplVersion merkleRoot nTime nonce
        version).take 4 = uint32LE (resolveVersion version tmplVersion) ∧
    ((serializeHeader prevhash bits tmplVersion merkleRoot nTime nonce
        version).drop 4).take 32 = hexToBytes prevhash.data ∧
    ((serializeHeader prevhash bits tmplVersion merkleRoot nTime nonce
        version).drop 36).take 32 = hexToBytes merkleRoot.data ∧
    ((serializeHeader prevhash bits tmplVersion merkleRoot nTime nonce
        version).drop 68).take 4 = uint32LE (parseHexJS nTime) ∧
    ((serializeHeader prevhash bits tmplVersion merkleRoot nTime nonce
        version).drop 72).take 4 = hexToBytes bits.data ∧
    (serializeHeader prevhash bits tmplVersion merkleRoot nTime nonce
        version).drop 76 = uint32LE (parseHexJS nonce) := by
  have hc := serializeHeader_concat prevhash bits merkleRoot nTime nonce
    tmplVersion version hpb hmr hbits
  set A := uint32LE (resolveVersion version tmplVersion) with hA
  set B := hexToBytes prevhash.data with hB
  set C := hexToBytes merkleRoot.data with hC
  set D := uint32LE (parseHexJS nTime) with hD
  set E := hexToBytes bits.data with hE
  set F := uint32LE (parseHexJS nonce) with hF
  have hAl : A.length = 4 := rfl
  have hDl : D.length = 4 := rfl
  have hFl : F.length = 4 := rfl
  refine ⟨?_, ?_, ?_, ?_, ?_, ?_, ?_⟩
  · rw [hc]
    simp only [List.length_append, hAl, hDl, hFl, hpb, hmr, hbits]
  · have h4 : serializeHeader prevhash bits tmplVersion merkleRoot nTime nonce
        version = A ++ (B ++ (C ++ (D ++ (E ++ F)))) := by
      rw [hc]; simp [List.append_assoc]
    rw [h4, List.take_left' hAl]
  · have h4 : serializeHeader prevhash bits tmplVersion merkleRoot nTime nonce
        version = A ++ (B ++ (C ++ (D ++ (E ++ F)))) := by
      rw [hc]; simp [List.append_assoc]
    rw [h4, List.drop_left' hAl, List.take_left' hpb]
  · have h4 : serializeHeader prevhash bits tmplVersion merkleRoot nTime nonce
        version = (A ++ B) ++ (C ++ (D ++ (E ++ F))) := by
      rw [hc]; simp [List.append_assoc]
    rw [h4, List.drop_left' (by rw [List.length_append, hAl, hpb]),
      List.take_left' hmr]
  · have h4 : serializeHeader prevhash bits tmplVersion merkleRoot nTime nonce
        version = ((A ++ B) ++ C) ++ (D ++ (E ++ F)) := by
      rw [hc]; simp [List.append_assoc]
    rw [h4, List.drop_left' (by
        rw [List.length_append, List.length_append, hAl, hpb, hmr]),
      List.take_left' hDl]
  · have h4 : serializeHeader prevhash bits tmplVersion merkleRoot nTime nonce
        version = (((A ++ B) ++ C) ++ D) ++ (E ++ F) := by
      rw [hc]; simp [List.append_assoc]
    rw [h4, List.drop_left' (by
        simp only [List.length_append, hAl, hDl, hpb, hmr]),
      List.take_left' hbits]
  · have h4 : serializeHeader prevhash bits tmplVersion merkleRoot nTime nonce
        version = ((((A ++ B) ++ C) ++ D) ++ E) ++ F := by
      rw [hc]
    rw [h4, List.drop_left' (by
        simp only [List.length_append, hAl, hDl, hpb, hmr, hbits])]

/-- C2 witness: the amended layout theorem at a concrete header. -/
theorem C2_serialize_header_layout_witness :
    (serializeHeader
      "00000000000000000001234567890abcdef1234567890abcdef1234567890abc"
      "1d00ffff" 536870912
      "4d16b6f85af6e2198f44ae2a6de67f78487ae5611b77c6c0440b24fa6bde8d99"
      "504e86ed" "b2957c02" (some 536870914)).length = 80 :=
  (C2_serialize_header_layout
    "00000000000000000001234567890abcdef1234567890abcdef1234567890abc"
    "1d00ffff"
    "4d16b6f85af6e2198f44ae2a6de67f78487ae5611b77c6c0440b24fa6bde8d99"
    "504e86ed" "b2957c02" 536870912 (some 536870914) rfl rfl rfl).1

/-! ## Compact bits (lib/util.js lines 543–552 and 563–574)

```js
exports.bufferToCompactBits = function(startingBuff){
    var bigNum = bignum.fromBuffer(startingBuff);
    var buff = bigNum.toBuffer();
    buff = buff.readUInt8(0) > 0x7f ? Buffer.concat([Buffer.from([0x00]), buff]) : buff;
    buff = Buffer.concat([Buffer.from([buff.length]), buff]);
    var compact = buff.slice(0, 4);
    return compact;
};
exports.bignumFromBitsBuffer = function(bitsBuff){
    var numBytes = bitsBuff.readUInt8(0);
    var bigBits = bignum.fromBuffer(bitsBuff.slice(1));
    var target = bigBits.mul(bignum(2).pow(bignum(8).mul(numBytes - 3)));
    return target;
};
```
`BigNumCompat.toBuffer` (lib/bignum-compat.js) renders the value as a
minimal big-endian hex string (one `00` byte for zero) and then **left-pads
with zeros to the default `size = 32`**; `bignum(2).pow` throws a
`RangeError` on a negative BigInt exponent, modelled as `none`. -/

/-- Little-endian base-256 digits of a number (empty for zero). -/
def natLEBytes (v : Nat) : List Nat :=
  if h : v = 0 then [] else v % 256 :: natLEBytes (v / 256)
  termination_by v
  decreasing_by exact Nat.div_lt_self (Nat.pos_of_ne_zero h) (by norm_num)

/-- Little-endian value of a byte list. -/
def leVal (bs : List Nat) : Nat :=
  bs.foldr (fun b a => b + 256 * a) 0

/-- `bignum.fromBuffer` (big-endian): fold the bytes. -/
def beBytesToNat (bs : List Nat) : Nat :=
  bs.foldl (fun a b => a * 256 + b) 0

/-- `BigNumCompat.toBuffer()` with the default options: minimal big-endian
encoding, left-padded with zero bytes to 32 when shorter. -/
def bignumToBuffer (v : Nat) : List Nat :=
  let minimal := if v = 0 then [0] else (natLEBytes v).reverse
  if minimal.length < 32 then List.replicate (32 - minimal.length) 0 ++ minimal
  else minimal

/-- `util.bufferToCompactBits`, as a function of the target value carried by
the input buffer (`bignum.fromBuffer` of the buffer). -/
def bufferToCompactBits (target : Nat) : List Nat :=
  let buff := bignumToBuffer target
  let buff2 := if 0x7f < buff.headI then 0 :: buff else buff
  (buff2.length :: buff2).take 4

/-- `util.bignumFromBitsBuffer`; `none` models the `RangeError` that
`bignum(2).pow` raises on a negative exponent (length byte below 3), and the
read of an empty buffer. -/
def bignumFromBitsBuffer (bits : List Nat) : Option Nat :=
  match bits with
  | [] => none
  | n :: rest => if 3 ≤ n then some (beBytesToNat rest * 2 ^ (8 * (n - 3)))
                 else none

theorem leVal_natLEBytes : ∀ v, leVal (natLEBytes v) = v := by
  intro v
  induction v using Nat.strong_induction_on with
  | _ v ih =>
    unfold natLEBytes
    by_cases h : v = 0
    · rw [dif_pos h, h]
      rfl
    · rw [dif_neg h]
      have := ih (v / 256) (Nat.div_lt_self (Nat.pos_of_ne_zero h) (by norm_num))
      simp only [leVal, List.foldr_cons] at this ⊢
      omega

theorem natLEBytes_lt : ∀ v, ∀ b ∈ natLEBytes v, b < 256 := by
  intro v
  induction v using Nat.strong_induction_on with
  | _ v ih =>
    unfold natLEBytes
    by_cases h : v = 0
    · rw [dif_pos h]
      simp
    · rw [dif_neg h]
      intro b hb
      rcases List.mem_cons.mp hb with rfl | hb
      · exact Nat.mod_lt _ (by norm_num)
      · exact ih (v / 256) (Nat.div_lt_self (Nat.pos_of_ne_zero h) (by norm_num)) b hb

theorem natLEBytes_length_le : ∀ k v, v < 256 ^ k → (natLEBytes v).length ≤ k := by
  intro k
  induction k with
  | zero =>
    intro v hv
    have : v = 0 := by omega
    subst this
    simp [natLEBytes]
  | succ k ih =>
    intro v hv
    unfold natLEBytes
    by_cases h : v = 0
    · rw [dif_pos h]
      simp
    · rw [dif_neg h]
      simp only [List.length_cons]
      have : v / 256 < 256 ^ k := by
        rw [Nat.div_lt_iff_lt_mul (by norm_num)]
        calc v < 256 ^ (k + 1) := hv
          _ = 256 ^ k * 256 := by rw [Nat.pow_succ]
      exact Nat.succ_le_succ (ih _ this)

theorem beVal_aux :
    ∀ (bs : List Nat) (a : Nat),
      List.foldl (fun a b => a * 256 + b) a bs = a * 256 ^ bs.length + beBytesToNat bs := by
  intro bs
  induction bs with
  | nil => intro a; simp [beBytesToNat]
  | cons b bs ih =>
    intro a
    have hb : beBytesToNat (b :: bs) = b * 256 ^ bs.length + beBytesToNat bs := by
      have h1 : beBytesToNat (b :: bs) =
          List.foldl (fun a b => a * 256 + b) (0 * 256 + b) bs := rfl
      rw [h1, ih (0 * 256 + b)]
      ring_nf
    simp only [List.foldl_cons]
    rw [ih (a * 256 + b), hb, List.length_cons]
    ring

theorem beVal_append (xs ys : List Nat) :
    beBytesToNat (xs ++ ys) = beBytesToNat xs * 256 ^ ys.length + beBytesToNat ys := by
  unfold beBytesToNat
  rw [List.foldl_append]
  exact beVal_aux ys _

theorem beVal_lt (bs : List Nat) (h : ∀ b ∈ bs, b < 256) :
    beBytesToNat bs < 256 ^ bs.length := by
  induction bs with
  | nil => simp [beBytesToNat]
  | cons b bs ih =>
    have hb : beBytesToNat (b :: bs) = b * 256 ^ bs.length + beBytesToNat bs := by
      have := beVal_append [b] bs
      simpa [beBytesToNat] using this
    rw [hb, List.length_cons]
    have h1 : b < 256 := h b (List.mem_cons_self b bs)
    have h2 : beBytesToNat bs < 256 ^ bs.length := ih (fun x hx => h x (List.mem_cons_of_mem b hx))
    calc b * 256 ^ bs.length + beBytesToNat bs
        < b * 256 ^ bs.length + 256 ^ bs.length := by omega
      _ = (b + 1) * 256 ^ bs.length := by ring
      _ ≤ 256 * 256 ^ bs.length := by
          exact Nat.mul_le_mul_right _ (by omega)
      _ = 256 ^ (bs.length + 1) := by rw [Nat.pow_succ]; ring

theorem beVal_reverse_natLEBytes (v : Nat) :
    beBytesToNat (natLEBytes v).reverse = v := by
  have key : ∀ bs : List Nat, beBytesToNat bs.reverse = leVal bs := by
    intro bs
    induction bs with
    | nil => rfl
    | cons b bs ih =>
      rw [List.reverse_cons, beVal_append, ih]
      simp [beBytesToNat, leVal]
      ring
  rw [key, leVal_natLEBytes]

theorem beVal_replicate_zero (z : Nat) (bs : List Nat) :
    beBytesToNat (List.replicate z 0 ++ bs) = beBytesToNat bs := by
  rw [beVal_append]
  have : beBytesToNat (List.replicate z 0) = 0 := by
    induction z with
    | zero => rfl
    | succ n ih =>
      have : List.replicate (n + 1) 0 = List.replicate n 0 ++ [0] := by
        rw [List.replicate_succ' (α := Nat)]
      rw [this, beVal_append, ih]
      rfl
  rw [this]
  ring_nf

/-- The 32-byte buffer `toBuffer()` produces carries the value, has length
32 and byte-sized entries, for every value below `2^256`. -/
theorem bignumToBuffer_spec (v : Nat) (hv : v < 2 ^ 256) :
    beBytesToNat (bignumToBuffer v) = v ∧ (bignumToBuffer v).length = 32 ∧
      ∀ b ∈ bignumToBuffer v, b < 256 := by
  unfold bignumToBuffer
  by_cases h0 : v = 0
  · subst h0
    refine ⟨by decide, by decide, by decide⟩
  · rw [if_neg h0]
    have hlen : (natLEBytes v).length ≤ 32 := by
      apply natLEBytes_length_le
      calc v < 2 ^ 256 := hv
        _ = 256 ^ 32 := by norm_num
    have hrev : (natLEBytes v).reverse.length ≤ 32 := by
      rw [List.length_reverse]; exact hlen
    by_cases hc : (natLEBytes v).reverse.length < 32
    · rw [if_pos hc]
      refine ⟨?_, ?_, ?_⟩
      · rw [beVal_replicate_zero, beVal_reverse_natLEBytes]
      · rw [List.length_append, List.length_replicate]
        omega
      · intro b hb
        rcases List.mem_append.mp hb with hb | hb
        · have := List.eq_of_mem_replicate hb
          omega
        · exact natLEBytes_lt v b (List.mem_reverse.mp hb)
    · rw [if_neg hc]
      refine ⟨beVal_reverse_natLEBytes v, by omega, ?_⟩
      intro b hb
      exact natLEBytes_lt v b (List.mem_reverse.mp hb)

/-- The value of a 3-byte big-endian prefix of a 32-byte buffer. -/
theorem beVal_take (bs : List Nat) (k : Nat)
    (h : ∀ b ∈ bs, b < 256) :
    beBytesToNat (bs.take k) = beBytesToNat bs / 256 ^ (bs.length - k) := by
  have hsplit : bs = bs.take k ++ bs.drop k := (List.take_append_drop k bs).symm
  have hdlen : (bs.drop k).length = bs.length - k := List.length_drop k bs
  have hdv : beBytesToNat (bs.drop k) < 256 ^ (bs.length - k) := by
    rw [← hdlen]
    exact beVal_lt _ (fun b hb => h b (List.mem_of_mem_drop hb))
  have hval : beBytesToNat bs =
      beBytesToNat (bs.take k) * 256 ^ (bs.length - k) + beBytesToNat (bs.drop k) := by
    conv_lhs => rw [hsplit]
    rw [beVal_append, hdlen]
  rw [hval, Nat.mul_comm,
    Nat.mul_add_div (Nat.pow_pos (by norm_num : (0:Nat) < 256)),
    Nat.div_eq_of_lt hdv, Nat.add_zero]

/-- What the compact-bits round trip actually computes: for every target
below `2^255` (high bit clear), decoding the produced compact value yields
the target truncated to its top three bytes of the 32-byte frame,
`⌊t / 2^232⌋ · 2^232`. -/
theorem compact_roundtrip_trunc (t : Nat) (ht : t < 2 ^ 255) :
    bignumFromBitsBuffer (bufferToCompactBits t) =
      some (t / 2 ^ 232 * 2 ^ 232) := by
  obtain ⟨hval, hlen, hbytes⟩ := bignumToBuffer_spec t
    (lt_trans ht (by norm_num))
  unfold bufferToCompactBits
  cases hBc : bignumToBuffer t with
  | nil => rw [hBc] at hlen; simp at hlen
  | cons b rest =>
    rw [hBc] at hval hlen hbytes
    have hrest : rest.length = 31 := by
      simpa using hlen
    have hbval : b = t / 256 ^ 31 := by
      have h1 : beBytesToNat ((b :: rest).take 1) =
          beBytesToNat (b :: rest) / 256 ^ ((b :: rest).length - 1) :=
        beVal_take (b :: rest) 1 hbytes
      rw [hval, hlen] at h1
      simpa [beBytesToNat] using h1
    have hhead : ¬ (0x7f < (b :: rest).headI) := by
      simp only [List.headI]
      rw [hbval]
      have : t / 256 ^ 31 < 128 := by
        rw [Nat.div_lt_iff_lt_mul (Nat.pow_pos (by norm_num))]
        calc t < 2 ^ 255 := ht
          _ = 128 * 256 ^ 31 := by norm_num
      omega
    simp only [hhead, if_false]
    rw [hlen]
    have htake : (((32 : Nat) :: b :: rest).take 4) =
        32 :: ((b :: rest).take 3) := rfl
    rw [htake]
    have hval3 : beBytesToNat ((b :: rest).take 3) = t / 256 ^ 29 := by
      rw [beVal_take (b :: rest) 3 hbytes, hval, hlen]
    have hred : bignumFromBitsBuffer (32 :: (b :: rest).take 3) =
        if 3 ≤ 32 then
          some (beBytesToNat ((b :: rest).take 3) * 2 ^ (8 * (32 - 3)))
        else none := rfl
    rw [hred, if_pos (by norm_num), hval3]
    norm_num

/-- C8, counterexample.  The target 1 has its high bit clear, yet the
compact round trip returns 0, not 1: `toBuffer()` pads to 32 bytes, so the
compact value keeps only the top three bytes of the 32-byte frame. -/
theorem C8_counterexample :
    bignumFromBitsBuffer (bufferToCompactBits 1) = some 0 ∧
    (1 : Nat) < 2 ^ 255 ∧ some (0 : Nat) ≠ some (1 : Nat) := by
  refine ⟨?_, by norm_num, by simp⟩
  rw [compact_roundtrip_trunc 1 (by norm_num)]
  norm_num

/-- C8, amended.  For every 256-bit target `t` with the high bit clear,
decoding the compact bits produced by `target_to_compact` returns
`⌊t / 2^232⌋ · 2^232` — the target truncated to the top three bytes of its
zero-padded 32-byte encoding (`toBuffer()` pads to 32 bytes and the compact
value keeps the length byte plus the first three bytes).  The round trip is
exact precisely for the targets that are multiples of `2^232`. -/
theorem C8_compact_roundtrip (t : Nat) (ht : t < 2 ^ 255) :
    bignumFromBitsBuffer (bufferToCompactBits t) =
      some (t / 2 ^ 232 * 2 ^ 232) ∧
    (t % 2 ^ 232 = 0 →
      bignumFromBitsBuffer (bufferToCompactBits t) = some t) := by
  refine ⟨compact_roundtrip_trunc t ht, fun hdvd => ?_⟩
  rw [compact_roundtrip_trunc t ht]
  congr 1
  omega

/-- C8 witness: the amended theorem at the 2^232-aligned target `5 · 2^232`. -/
theorem C8_compact_roundtrip_witness :
    bignumFromBitsBuffer (bufferToCompactBits (5 * 2 ^ 232)) =
      some (5 * 2 ^ 232 / 2 ^ 232 * 2 ^ 232) ∧
    (5 * 2 ^ 232 % 2 ^ 232 = 0 →
      bignumFromBitsBuffer (bufferToCompactBits (5 * 2 ^ 232)) =
        some (5 * 2 ^ 232)) :=
  C8_compact_roundtrip (5 * 2 ^ 232) (by norm_num)

/-! ## Merkle tree (lib/merkleTree.js, appended to lib/peer.js lines 287–344)

```js
function merkleJoin(h1, h2){ return util.sha256d(Buffer.concat([h1, h2])); }
function calculateSteps(data){
    var L = data; var steps = []; var PreL = [null]; var StartL = 2; var Ll = L.length;
    if (Ll > 1){ while (true){
        if (Ll === 1) break;
        steps.push(L[1]);
        if (Ll % 2) L.push(L[L.length - 1]);
        var Ld = [];
        var r = util.range(StartL, Ll, 2);
        r.forEach(function(i){ Ld.push(merkleJoin(L[i], L[i + 1])); });
        L = PreL.concat(Ld); Ll = L.length;
    } }
    return steps;
}
withFirst: function(f){
    this.steps.forEach(function(s){ f = util.sha256d(Buffer.concat([f, s])); });
    return f;
}
```
The development is parametric in the combining function `join`
(`merkleJoin = sha256d ∘ concat`): both the steps computation and the
standard bottom-up root are compositions of the same `join`, so the claimed
identity between them holds for the double-SHA-256 instance.  A level
`[null, x₁, …, xₖ]` (index 0 is always the untouched null coinbase slot:
`PreL = [null]`, pairing starts at `StartL = 2`) is represented by its tail
`[x₁, …, xₖ]`. -/

/-- Combine consecutive pairs of a level: `join(L[i], L[i+1])` for
`i = StartL, StartL+2, …` applied to the slice from `StartL` on. -/
def pairJoin {α : Type} (join : α → α → α) : List α → List α
  | a :: b :: rest => join a b :: pairJoin join rest
  | _ => []

theorem pairJoin_length {α : Type} (join : α → α → α) :
    ∀ l : List α, (pairJoin join l).length = l.length / 2
  | [] => by simp [pairJoin]
  | [_] => by simp [pairJoin]
  | _ :: _ :: rest => by
    simp only [pairJoin, List.length_cons, pairJoin_length join rest]
    omega

/-- `calculateSteps(data)`: push `L[1]`, duplicate the last element when the
level length `2 + rest.length` is odd, pair up from index 2, recurse. -/
def calculateSteps {α : Type} (join : α → α → α) : List α → List α
  | [] => []
  | t :: rest =>
      t :: calculateSteps join (pairJoin join
        (if (2 + rest.length) % 2 = 1 then rest ++ [rest.getLastD t] else rest))
  termination_by l => l.length
  decreasing_by
    simp only [pairJoin_length]
    split
    · simp only [List.length_append, List.length_cons, List.length_nil]
      omega
    · simp only [List.length_cons]
      omega

/-- `withFirst(f)`: fold the coinbase hash through the stored steps. -/
def withFirst {α : Type} (join : α → α → α) (steps : List α) (f : α) : α :=
  steps.foldl join f

/-- One level of the *standard* bottom-up merkle computation, as the spec
words it: duplicate the last element of an odd-length level, then combine
adjacent pairs. -/
def specLevelStep {α : Type} (join : α → α → α) : List α → List α
  | [] => []
  | a :: rest =>
      pairJoin join (if (a :: rest).length % 2 = 1
        then (a :: rest) ++ [rest.getLastD a] else a :: rest)

/-- The standard bottom-up merkle root of a hash list (spec §4.C /
property 4): apply the level step until one hash remains. -/
def specMerkleRoot {α : Type} (join : α → α → α) : List α → Option α
  | [] => none
  | [a] => some a
  | a :: b :: rest => specMerkleRoot join (specLevelStep join (a :: b :: rest))
  termination_by l => l.length
  decreasing_by
    simp only [specLevelStep, pairJoin_length]
    split
    · simp only [List.length_append, List.length_cons, List.length_nil]
      omega
    · simp only [List.length_cons]
      omega


theorem specMerkleRoot_cons_cons {α : Type} (join : α → α → α) (a b : α)
    (rest : List α) :
    specMerkleRoot join (a :: b :: rest) =
      specMerkleRoot join (specLevelStep join (a :: b :: rest)) := by
  rw [specMerkleRoot]

theorem calculateSteps_cons {α : Type} (join : α → α → α) (t : α)
    (rest : List α) :
    calculateSteps join (t :: rest) =
      t :: calculateSteps join (pairJoin join
        (if (2 + rest.length) % 2 = 1 then rest ++ [rest.getLastD t] else rest)) := by
  rw [calculateSteps]

/-- The coinbase slot rides along the level step: the spec's level step on
`h :: t :: rest` is `join h t` consed onto the pairing of the (possibly
duplicated) tail from index 2 — the list `calculateSteps` recurses on. -/
theorem specLevelStep_cons_cons {α : Type} (join : α → α → α) (h t : α)
    (rest : List α) :
    specLevelStep join (h :: t :: rest) =
      join h t :: pairJoin join
        (if (2 + rest.length) % 2 = 1 then rest ++ [rest.getLastD t] else rest) := by
  show pairJoin join (if (h :: t :: rest).length % 2 = 1
      then (h :: t :: rest) ++ [(t :: rest).getLastD h] else h :: t :: rest) = _
  rw [List.getLastD_cons]
  by_cases hodd : rest.length % 2 = 1
  · rw [if_pos (by simp only [List.length_cons]; omega), if_pos (by omega)]
    rfl
  · rw [if_neg (by simp only [List.length_cons]; omega), if_neg (by omega)]
    rfl

/-- The fold through merkle steps, one step peeled. -/
theorem withFirst_cons {α : Type} (join : α → α → α) (s : α) (steps : List α)
    (f : α) : withFirst join (s :: steps) f = withFirst join steps (join f s) := rfl

theorem withFirst_calculateSteps {α : Type} (join : α → α → α) :
    ∀ (n : Nat) (txs : List α), txs.length ≤ n → ∀ h : α,
      specMerkleRoot join (h :: txs) =
        some (withFirst join (calculateSteps join txs) h) := by
  intro n
  induction n with
  | zero =>
    intro txs hlen h
    have : txs = [] := List.eq_nil_of_length_eq_zero (by omega)
    subst this
    simp [specMerkleRoot, calculateSteps, withFirst]
  | succ n ih =>
    intro txs hlen h
    cases txs with
    | nil => simp [specMerkleRoot, calculateSteps, withFirst]
    | cons t rest =>
      rw [specMerkleRoot_cons_cons, specLevelStep_cons_cons,
        calculateSteps_cons, withFirst_cons]
      apply ih
      rw [pairJoin_length]
      by_cases hodd : (2 + rest.length) % 2 = 1
      · rw [if_pos hodd]
        simp only [List.length_append, List.length_cons, List.length_nil]
        simp only [List.length_cons] at hlen
        omega
      · rw [if_neg hodd]
        simp only [List.length_cons] at hlen
        omega

/-- C1, confirmed.  For every transaction-hash list with the null coinbase
placeholder at index 0 (represented by its tail `txs`), folding a coinbase
hash `h` through the stored steps via `join = double-SHA-256 ∘ concat`
(`withFirst`) computes exactly the standard bottom-up merkle root of the
list with `h` placed at index 0, duplicating the last element of odd-length
levels; in particular, with only the coinbase placeholder the steps list is
empty and the result is `h` itself.  Parametric in `join`, hence valid for
the double-SHA-256 instance. -/
theorem C1_merkle_round_trip {α : Type} (join : α → α → α) (txs : List α)
    (h : α) :
    specMerkleRoot join (h :: txs) =
      some (withFirst join (calculateSteps join txs) h) ∧
    calculateSteps join ([] : List α) = [] ∧
    withFirst join [] h = h :=
  ⟨withFirst_calculateSteps join txs.length txs (Nat.le_refl _) h,
    by simp [calculateSteps], rfl⟩

/-! ## ASICBoost version validation (lib/jobManager.js lines 292–349)

```js
var versionInt = parseInt(version || job.rpcData.version, 16);
if (options.coin.asicboost) {
    if (versionInt === 0) { versionInt = job.rpcData.version; }
    if (versionInt < 0x00000004) { return shareError([20, 'version too low']); }
    var effectiveMask = versionMask || job.versionMask;
    if (versionInt !== job.rpcData.version) {
        var rolledBits = versionInt ^ job.rpcData.version;
        var invalidBits = rolledBits & ~effectiveMask;
        if (invalidBits !== 0) {
            return shareError([20, 'version rolling outside allowed mask']);
        }
    }
}
```
`job.rpcData.version` is a *number*; when the submit carries no version,
`parseInt` therefore receives the decimal rendering of the template version
and reads it as hex.  The comparisons act on the untruncated number; the
bitwise operators act on the low 32 bits (JS `ToInt32`), with `~m` on an
unsigned 32-bit view being `2^32 - 1 - m`. -/

/-- `versionMask || job.versionMask` (JS falsiness: absent or 0 falls back
to the job's mask, default `0x3fffe000`). -/
def effectiveVersionMask (negotiated : Option Nat) (jobMask : Nat) : Nat :=
  match negotiated with
  | some m => if m = 0 then jobMask else m
  | none => jobMask

/-- `parseInt(version || job.rpcData.version, 16)`: the submitted hex string
when present, else the decimal rendering of the template version read as
hex. -/
def versionIntOf (version : Option String) (templateVersion : Nat) : Nat :=
  match version with
  | some s => parseHexJS s
  | none => parseHexJS (toString templateVersion)

/-- The ASICBoost validation of `processShare`: returns the accepted final
version value, or the stratum error it rejects with. -/
def asicboostCheck (versionInt templateVersion : Nat) (negotiated : Option Nat)
    (jobMask : Nat) : Except (Nat × String) Nat :=
  let v := if versionInt = 0 then templateVersion else versionInt
  if v < 4 then .error (20, "version too low")
  else
    let mask := effectiveVersionMask negotiated jobMask
    if v ≠ templateVersion then
      let rolled := (v % 4294967296) ^^^ (templateVersion % 4294967296)
      let invalid := rolled &&& (4294967295 - mask % 4294967296)
      if invalid ≠ 0 then .error (20, "version rolling outside allowed mask")
      else .ok v
    else .ok v

/-- C3, counterexample.  A submit that carries *no* version on a template
with version 0x20000000 is rejected: `parseInt(version ||
job.rpcData.version, 16)` reads the decimal rendering "536870912" as hex
(0x536870912), which truncates to 0x36870912 and fails the mask check with
error 20 — while the claim, which substitutes the template version itself,
requires the validation to pass (its own pass-condition holds for
0x20000000 under the default mask 0x3fffe000). -/
theorem C3_counterexample :
    asicboostCheck (versionIntOf none 536870912) 536870912 none 1073733632 =
      .error (20, "version rolling outside allowed mask") ∧
    (4 ≤ 536870912 ∧
      ((536870912 ^^^ 536870912) &&& (4294967295 - 1073733632) : Nat) = 0) := by
  constructor
  · rfl
  · constructor
    · norm_num
    · decide

/-- C3, amended.  When ASICBoost is enabled, with `v` the parsed version
value — parsed from the submit's hex string when one is carried, otherwise
from the *decimal rendering* of the template version reinterpreted as hex —
and `v' = template.version` when `v = 0`, else `v'= v`: validation passes
returning `v'` iff `v' ≥ 4` and `(v' XOR template.version) AND
NOT(negotiated_mask or job.version_mask) = 0` on the low 32 bits; when
`v' < 4` it rejects with error 20 "version too low", and otherwise, when the
mask condition fails, with error 20 "version rolling outside allowed
mask". -/
theorem C3_version_validation (v tv jm : Nat) (neg : Option Nat) :
    (asicboostCheck v tv neg jm = .ok (if v = 0 then tv else v) ↔
      (4 ≤ (if v = 0 then tv else v) ∧
        ((if v = 0 then tv else v) % 4294967296 ^^^ tv % 4294967296) &&&
          (4294967295 - effectiveVersionMask neg jm % 4294967296) = 0)) ∧
    ((if v = 0 then tv else v) < 4 →
      asicboostCheck v tv neg jm = .error (20, "version too low")) ∧
    (4 ≤ (if v = 0 then tv else v) →
      ((if v = 0 then tv else v) % 4294967296 ^^^ tv % 4294967296) &&&
          (4294967295 - effectiveVersionMask neg jm % 4294967296) ≠ 0 →
      asicboostCheck v tv neg jm =
        .error (20, "version rolling outside allowed mask")) := by
  unfold asicboostCheck
  dsimp only
  set w := if v = 0 then tv else v with hw
  by_cases hlow : w < 4
  · rw [if_pos hlow]
    refine ⟨?_, fun _ => rfl, fun h4 _ => by omega⟩
    constructor
    · intro h
      exact absurd h (by simp)
    · rintro ⟨h4, -⟩
      omega
  · rw [if_neg hlow]
    by_cases heq : w = tv
    · rw [if_neg (by simp [heq])]
      rw [heq]
      refine ⟨?_, fun h => by omega, fun _ hne => ?_⟩
      · simp only [Nat.xor_self, Nat.zero_and]
        constructor
        · intro _
          exact ⟨by omega, trivial⟩
        · intro _
          trivial
      · rw [Nat.xor_self, Nat.zero_and] at hne
        exact absurd rfl hne
    · rw [if_pos heq]
      by_cases hinv : (w % 4294967296 ^^^ tv % 4294967296) &&&
          (4294967295 - effectiveVersionMask neg jm % 4294967296) ≠ 0
      · rw [if_pos hinv]
        refine ⟨?_, fun h => by omega, fun _ _ => rfl⟩
        constructor
        · intro h
          exact absurd h (by simp)
        · rintro ⟨-, hz⟩
          exact absurd hz hinv
      · rw [if_neg hinv]
        push_neg at hinv
        refine ⟨?_, fun h => by omega, fun _ hne => absurd hinv hne⟩
        constructor
        · intro _
          exact ⟨by omega, hinv⟩
        · intro _
          rfl

/-- C3 witness: the amended theorem at a version-less submit on a
0x20000000 template with the default job mask 0x3fffe000 — the parsed value
`parseHexJS "536870912" = 0x536870912` exceeds 2^32, its low 32 bits
0x36870912 roll bits outside the mask, and the mask arm of the theorem
yields the rejection. -/
theorem C3_version_validation_witness :
    asicboostCheck (versionIntOf none 536870912) 536870912 none 1073733632 =
      .error (20, "version rolling outside allowed mask") :=
  (C3_version_validation (versionIntOf none 536870912) 536870912 1073733632
    none).2.2 (by decide) (by decide)

/-! ## Low-difficulty branch of processShare (lib/jobManager.js lines 440–464)

```js
if (shareDiff / difficulty < 0.99){
    if (previousDifficulty && shareDiff >= previousDifficulty){
        difficulty = previousDifficulty;
    }
    else{
        return shareError([23, 'low difficulty share of ' + shareDiff]);
    }
}
```
On success the share is credited at the (possibly substituted) difficulty.
The error message concatenates the *raw* JS number (`+ shareDiff`), not the
`toFixed(8)` rendering used in the emitted share record. -/

/-- JS default `Number → String` for the values the claims evaluate: an
integer-valued number prints as its plain decimal numeral (no decimal
point).  Non-integral values — which no claim instance produces — are
rendered `num/den`; only the integral arm models JavaScript. -/
def jsNumToString (q : ℚ) : String :=
  if q.den = 1 then toString q.num
  else toString q.num ++ "/" ++ toString q.den

/-- The non-block-candidate tail of `processShare`, parametric in the JS
number rendering `render` used by the message: result is the credited
difficulty or the stratum error. -/
def lowDiffCheck (render : ℚ → String) (shareDiff difficulty : ℚ)
    (previousDifficulty : Option ℚ) : Except (Nat × String) ℚ :=
  if shareDiff / difficulty < 99 / 100 then
    match previousDifficulty with
    | some pd =>
        if pd ≠ 0 ∧ pd ≤ shareDiff then .ok pd
        else .error (23, "low difficulty share of " ++ render shareDiff)
    | none => .error (23, "low difficulty share of " ++ render shareDiff)
  else .ok difficulty

/-- C4, counterexample.  With worker difficulty 1000, share difficulty 950
(ratio 0.95 < 0.99) and previous difficulty 1000 ≥ 950, the claim says the
share is credited at 1000 — but the code requires `shareDiff ≥
previousDifficulty` (the opposite inequality) and rejects with error 23.
And in the S5 scenario (no previous difficulty) the message is
"low difficulty share of 950" — the raw JS number — not the claimed
"low difficulty share of 950.00000000". -/
theorem C4_counterexample :
    lowDiffCheck jsNumToString 950 1000 (some 1000) =
      .error (23, "low difficulty share of 950") ∧
    (950 : ℚ) / 1000 < 99 / 100 ∧ (950 : ℚ) ≤ 1000 ∧
    lowDiffCheck jsNumToString 950 1000 none =
      .error (23, "low difficulty share of 950") ∧
    "low difficulty share of 950" ≠ "low difficulty share of 950.00000000" := by
  refine ⟨?_, by norm_num, by norm_num, ?_, by decide⟩
  · unfold lowDiffCheck
    rw [if_pos (by norm_num : (950 : ℚ) / 1000 < 99 / 100)]
    show (if (1000 : ℚ) ≠ 0 ∧ (1000 : ℚ) ≤ 950 then Except.ok (1000 : ℚ)
      else Except.error (23, "low difficulty share of " ++ jsNumToString 950)) = _
    rw [if_neg (by norm_num)]
    rfl
  · unfold lowDiffCheck
    rw [if_pos (by norm_num : (950 : ℚ) / 1000 < 99 / 100)]
    rfl

/-- C4, amended.  For every non-block-candidate share, with `ratio =
share_diff / diff`: if `ratio < 0.99` and a nonzero previous difficulty
exists with `share_diff ≥ prev_diff`, the share is credited at `prev_diff`
and reported valid; if `ratio < 0.99` and the previous difficulty is absent,
zero, or *greater than* `share_diff`, the share is rejected with error 23
and message "low difficulty share of " followed by the JS rendering of the
computed share difficulty (e.g. "low difficulty share of 950" for the
integer 950); if `ratio ≥ 0.99` the share is credited at `diff`. -/
theorem C4_low_difficulty (render : ℚ → String) (shareDiff difficulty : ℚ)
    (prev : Option ℚ) :
    (shareDiff / difficulty < 99 / 100 →
      ∀ pd, prev = some pd → pd ≠ 0 → pd ≤ shareDiff →
        lowDiffCheck render shareDiff difficulty prev = .ok pd) ∧
    (shareDiff / difficulty < 99 / 100 →
      (prev = none ∨ prev = some 0 ∨ ∃ pd, prev = some pd ∧ shareDiff < pd) →
      lowDiffCheck render shareDiff difficulty prev =
        .error (23, "low difficulty share of " ++ render shareDiff)) ∧
    (99 / 100 ≤ shareDiff / difficulty →
      lowDiffCheck render shareDiff difficulty prev = .ok difficulty) := by
  refine ⟨?_, ?_, ?_⟩
  · intro hratio pd hpd hne hle
    subst hpd
    unfold lowDiffCheck
    rw [if_pos hratio]
    show (if pd ≠ 0 ∧ pd ≤ shareDiff then Except.ok pd
      else Except.error (23, "low difficulty share of " ++ render shareDiff)) = _
    rw [if_pos ⟨hne, hle⟩]
  · intro hratio hcase
    unfold lowDiffCheck
    rw [if_pos hratio]
    rcases hcase with rfl | rfl | ⟨pd, rfl, hlt⟩
    · rfl
    · show (if (0 : ℚ) ≠ 0 ∧ (0 : ℚ) ≤ shareDiff then Except.ok (0 : ℚ)
        else Except.error (23, "low difficulty share of " ++ render shareDiff)) = _
      rw [if_neg (by simp)]
    · show (if pd ≠ 0 ∧ pd ≤ shareDiff then Except.ok pd
        else Except.error (23, "low difficulty share of " ++ render shareDiff)) = _
      rw [if_neg (by
        rintro ⟨-, hle⟩
        exact absurd hle (not_le.mpr hlt))]
  · intro hratio
    unfold lowDiffCheck
    rw [if_neg (not_lt.mpr hratio)]

/-- C4 witness: the amended theorem crediting a 950-difficulty share at the
previous difficulty 900 after a vardiff retarget to 1000. -/
theorem C4_low_difficulty_witness :
    lowDiffCheck jsNumToString 950 1000 (some 900) = .ok 900 :=
  (C4_low_difficulty jsNumToString 950 1000 (some 900)).1 (by norm_num) 900
    rfl (by norm_num) (by norm_num)

/-! ## The processShare pipeline (lib/jobManager.js lines 255–484)

The validation pipeline in source order: extranonce2 size, job lookup,
nTime size, nTime range (against `submitTime = Date.now()/1000` at call
time), nonce size, ASICBoost version validation, `registerSubmit`
(de-duplication — *before* any hashing), then either the block-candidate
path or the low-difficulty check.  The hashing steps (coinbase, merkle
root, header, 256-bit comparison) are deterministic functions of the
submitted arguments; they enter here as the parameters `shareDiffOf` and
`isBlockCandidate`, which is all claims about control flow and state
need.  The job's `submits` array is the threaded state. -/

/-- `extraNoncePlaceholder.length (8) − ExtraNonceCounter.size (4)`. -/
def extraNonce2Size : Nat := 8 - 4

/-- The fields of one job a submit is validated against. -/
structure ShareJob where
  jobId : String
  curtime : Nat
  version : Nat
  versionMask : Nat

/-- The arguments of one `processShare` call. -/
structure ShareSubmit where
  jobId : String
  extraNonce1 : String
  extraNonce2 : String
  nTime : String
  nonce : String
  version : Option String
  versionMask : Option Nat
  previousDifficulty : Option ℚ
  difficulty : ℚ

/-- `JobManager.processShare`, for a job present in the valid-jobs map under
its own id, as a function of the job's `submits` state; returns the result
and the updated state.  The size check divides the JS way (`length / 2` as
a rational, so odd lengths fail). -/
def processShareModel (asicboost : Bool) (render : ℚ → String) (job : ShareJob)
    (shareDiffOf : ShareSubmit → ℚ) (isBlockCandidate : ShareSubmit → Bool)
    (submits : List String) (a : ShareSubmit) (submitTime : Nat) :
    Except (Nat × String) ℚ × List String :=
  if (a.extraNonce2.length : ℚ) / 2 ≠ (extraNonce2Size : ℚ) then
    (.error (20, "incorrect size of extranonce2"), submits)
  else if a.jobId ≠ job.jobId then
    (.error (21, "job not found"), submits)
  else if a.nTime.length ≠ 8 then
    (.error (20, "incorrect size of ntime"), submits)
  else if parseHexJS a.nTime < job.curtime ∨
      submitTime + 7200 < parseHexJS a.nTime then
    (.error (20, "ntime out of range"), submits)
  else if a.nonce.length ≠ 8 then
    (.error (20, "incorrect size of nonce"), submits)
  else
    match (if asicboost then
        asicboostCheck (versionIntOf a.version job.version) job.version
          a.versionMask job.versionMask
      else .ok (versionIntOf a.version job.version)) with
    | .error e => (.error e, submits)
    | .ok _ =>
      let r := registerSubmit submits
        (a.extraNonce1, a.extraNonce2, a.nTime, a.nonce)
      if r.1 = false then (.error (22, "duplicate share"), r.2)
      else if isBlockCandidate a then (.ok a.difficulty, r.2)
      else (lowDiffCheck render (shareDiffOf a) a.difficulty
        a.previousDifficulty, r.2)

/-- Every rejection of the ASICBoost validation carries stratum code 20. -/
theorem asicboostCheck_error_code (v tv : Nat) (neg : Option Nat) (jm : Nat)
    (e : Nat × String) (h : asicboostCheck v tv neg jm = .error e) :
    e.1 = 20 := by
  unfold asicboostCheck at h
  dsimp only at h
  set w := if v = 0 then tv else v with hw
  split at h
  · injection h with h2
    rw [← h2]
  · split at h
    · split at h
      · injection h with h2
        rw [← h2]
      · exact absurd h (by simp)
    · exact absurd h (by simp)

/-- Inversion of a "low difficulty" rejection: every earlier check passed,
the tuple was not yet in the job's duplicate set, and — the point of the
claim — the call has already appended it to the set. -/
theorem processShare_error23 (asicboost : Bool) (render : ℚ → String)
    (job : ShareJob) (shareDiffOf : ShareSubmit → ℚ)
    (isBlockCandidate : ShareSubmit → Bool) (submits : List String)
    (a : ShareSubmit) (t : Nat) (msg : String)
    (h : (processShareModel asicboost render job shareDiffOf isBlockCandidate
      submits a t).1 = .error (23, msg)) :
    ¬ ((a.extraNonce2.length : ℚ) / 2 ≠ (extraNonce2Size : ℚ)) ∧
    a.jobId = job.jobId ∧ a.nTime.length = 8 ∧
    job.curtime ≤ parseHexJS a.nTime ∧ parseHexJS a.nTime ≤ t + 7200 ∧
    a.nonce.length = 8 ∧
    (∃ v, (if asicboost then
        asicboostCheck (versionIntOf a.version job.version) job.version
          a.versionMask job.versionMask
      else .ok (versionIntOf a.version job.version)) = .ok v) ∧
    (processShareModel asicboost render job shareDiffOf isBlockCandidate
      submits a t).2 = submits ++
        [submissionKey (a.extraNonce1, a.extraNonce2, a.nTime, a.nonce)] := by
  unfold processShareModel at h ⊢
  by_cases c1 : (a.extraNonce2.length : ℚ) / 2 ≠ (extraNonce2Size : ℚ)
  · rw [if_pos c1] at h
    exact absurd h (by simp)
  · rw [if_neg c1] at h ⊢
    by_cases c2 : a.jobId ≠ job.jobId
    · rw [if_pos c2] at h
      exact absurd h (by simp)
    · rw [if_neg c2] at h ⊢
      by_cases c3 : a.nTime.length ≠ 8
      · rw [if_pos c3] at h
        exact absurd h (by simp)
      · rw [if_neg c3] at h ⊢
        by_cases c4 : parseHexJS a.nTime < job.curtime ∨
            t + 7200 < parseHexJS a.nTime
        · rw [if_pos c4] at h
          exact absurd h (by simp)
        · rw [if_neg c4] at h ⊢
          by_cases c5 : a.nonce.length ≠ 8
          · rw [if_pos c5] at h
            exact absurd h (by simp)
          · rw [if_neg c5] at h ⊢
            rcases hvres : (if asicboost then
                asicboostCheck (versionIntOf a.version job.version) job.version
                  a.versionMask job.versionMask
              else .ok (versionIntOf a.version job.version)) with e | v
            · rw [hvres] at h
              dsimp only at h
              have he : e = (23, msg) := by
                injection h
              have he20 : e.1 = 20 := by
                cases asicboost with
                | false =>
                  rw [if_neg (by simp)] at hvres
                  exact absurd hvres (by simp)
                | true =>
                  rw [if_pos rfl] at hvres
                  exact asicboostCheck_error_code _ _ _ _ _ hvres
              rw [he] at he20
              exact absurd he20 (by norm_num)
            · rw [hvres] at h
              simp only [hvres]
              dsimp only at h ⊢
              by_cases hdup : (registerSubmit submits
                  (a.extraNonce1, a.extraNonce2, a.nTime, a.nonce)).1 = false
              · rw [if_pos hdup] at h
                exact absurd h (by simp)
              · rw [if_neg hdup] at h ⊢
                have hnotmem : submissionKey
                    (a.extraNonce1, a.extraNonce2, a.nTime, a.nonce) ∉
                      submits := by
                  intro hmem
                  exact hdup (by simp [registerSubmit, if_pos hmem])
                refine ⟨c1, by push_neg at c2; exact c2, by omega,
                  by omega, by omega, by omega, ⟨v, rfl⟩, ?_⟩
                by_cases hcand : isBlockCandidate a = true
                · rw [if_pos hcand]
                  simp [registerSubmit, if_neg hnotmem]
                · rw [if_neg hcand]
                  simp [registerSubmit, if_neg hnotmem]

/-- A submit whose checks pass but whose tuple is already in the duplicate
set is rejected with error 22. -/
theorem processShare_duplicate (asicboost : Bool) (render : ℚ → String)
    (job : ShareJob) (shareDiffOf : ShareSubmit → ℚ)
    (isBlockCandidate : ShareSubmit → Bool) (submits : List String)
    (a : ShareSubmit) (t : Nat)
    (hc1 : ¬ ((a.extraNonce2.length : ℚ) / 2 ≠ (extraNonce2Size : ℚ)))
    (hc2 : a.jobId = job.jobId) (hc3 : a.nTime.length = 8)
    (hc4a : job.curtime ≤ parseHexJS a.nTime)
    (hc4b : parseHexJS a.nTime ≤ t + 7200) (hc5 : a.nonce.length = 8)
    (hver : ∃ v, (if asicboost then
        asicboostCheck (versionIntOf a.version job.version) job.version
          a.versionMask job.versionMask
      else .ok (versionIntOf a.version job.version)) = .ok v)
    (hmem : submissionKey (a.extraNonce1, a.extraNonce2, a.nTime, a.nonce) ∈
      submits) :
    (processShareModel asicboost render job shareDiffOf isBlockCandidate
      submits a t).1 = .error (22, "duplicate share") := by
  obtain ⟨v, hvres⟩ := hver
  unfold processShareModel
  rw [if_neg hc1, if_neg (by push_neg; exact hc2), if_neg (by omega),
    if_neg (by push_neg; omega), if_neg (by omega), hvres]
  dsimp only
  rw [if_pos (by simp [registerSubmit, if_pos hmem])]

/-- C10, confirmed.  Rejection with error 23 is not atomic with the job's
duplicate set: if a `process_share` call on a job rejects a share as
"low difficulty share of …", the 4-tuple was already added by
`registerSubmit` (which runs before the difficulty check), so a second call
with identical arguments on the same job — at any submit time at least as
late — returns error 22 "duplicate share" instead of being re-evaluated. -/
theorem C10_low_diff_registers_submit (asicboost : Bool) (render : ℚ → String)
    (job : ShareJob) (shareDiffOf : ShareSubmit → ℚ)
    (isBlockCandidate : ShareSubmit → Bool) (submits : List String)
    (a : ShareSubmit) (t1 t2 : Nat) (ht : t1 ≤ t2) (msg : String)
    (h1 : (processShareModel asicboost render job shareDiffOf isBlockCandidate
      submits a t1).1 = .error (23, msg)) :
    (processShareModel asicboost render job shareDiffOf isBlockCandidate
      (processShareModel asicboost render job shareDiffOf isBlockCandidate
        submits a t1).2 a t2).1 = .error (22, "duplicate share") := by
  obtain ⟨hc1, hc2, hc3, hc4a, hc4b, hc5, hver, hstate⟩ :=
    processShare_error23 asicboost render job shareDiffOf isBlockCandidate
      submits a t1 msg h1
  rw [hstate]
  exact processShare_duplicate asicboost render job shareDiffOf
    isBlockCandidate _ a t2 hc1 hc2 hc3 hc4a (by omega) hc5 hver
    (by simp [List.mem_append])

/-- C10 witness: a concrete low-difficulty share (difficulty 1000, computed
share difficulty 950, no previous difficulty) registers its tuple; the
identical second call is a duplicate. -/
theorem C10_low_diff_registers_submit_witness :
    (processShareModel false jsNumToString
      ⟨"1", 0, 536870912, 1073733632⟩ (fun _ => 950) (fun _ => false)
      ((processShareModel false jsNumToString
        ⟨"1", 0, 536870912, 1073733632⟩ (fun _ => 950) (fun _ => false) []
        ⟨"1", "01000000", "00000000", "5e4a4c3b", "12345678", none, none,
          none, 1000⟩ 1581930000).2)
      ⟨"1", "01000000", "00000000", "5e4a4c3b", "12345678", none, none,
        none, 1000⟩ 1581930000).1 = .error (22, "duplicate share") :=
  C10_low_diff_registers_submit false jsNumToString
    ⟨"1", 0, 536870912, 1073733632⟩ (fun _ => 950) (fun _ => false) []
    ⟨"1", "01000000", "00000000", "5e4a4c3b", "12345678", none, none,
      none, 1000⟩ 1581930000 1581930000 (Nat.le_refl _)
    ("low difficulty share of " ++ jsNumToString 950) (by
      unfold processShareModel
      rw [if_neg (by
          push_neg
          norm_num [show ("00000000".length = 8) from rfl, extraNonce2Size]),
        if_neg (by simp), if_neg (by decide), if_neg (by decide),
        if_neg (by decide), if_neg (by decide)]
      dsimp only
      rw [if_neg (by decide), if_neg (by decide)]
      dsimp only
      unfold lowDiffCheck
      rw [if_pos (by norm_num : (950 : ℚ) / 1000 < 99 / 100)])

/-! ## Vardiff controller (lib/varDiff.js lines 19–49 and 103–163)

```js
client.on('submit', function(){
    var ts = (Date.now() / 1000) | 0;
    if (!lastRtc){
        lastRtc = ts - options.retargetTime / 2;
        lastTs = ts; timeBuffer = new RingBuffer(bufferSize);
        return;
    }
    var sinceLast = ts - lastTs;
    timeBuffer.append(sinceLast); lastTs = ts;
    if ((ts - lastRtc) < options.retargetTime && timeBuffer.size() > 0)
        return;
    lastRtc = ts;
    var avg = timeBuffer.avg();
    var ddiff = options.targetTime / avg;
    if (avg > tMax && client.difficulty > options.minDiff) {
        if (options.x2mode) { ddiff = 0.5; }
        if (ddiff * client.difficulty < options.minDiff) {
            ddiff = options.minDiff / client.difficulty;
        }
    } else if (avg < tMin) {
        if (options.x2mode) { ddiff = 2; }
        var diffMax = options.maxDiff;
        if (ddiff * client.difficulty > diffMax) {
            ddiff = diffMax / client.difficulty;
        }
    }
    else{ return; }
    var newDiff = toFixed(client.difficulty * ddiff, 8);
    timeBuffer.clear();
    _this.emit('newDifficulty', client, newDiff);
});
```
Difficulties and timestamps are modelled as `ℚ`.  The one non-finite JS
value that can arise is `targetTime / avg` when `avg = 0` (+Infinity for
the positive `targetTime` configurations the theorems consider); a JS
number that may be non-finite is `Option ℚ` with `none` for the non-finite
case, and the two comparisons that can see it implement the JS semantics of
`Infinity * d < m` / `Infinity * d > m`. -/

/-- The ring buffer of inter-submit intervals. -/
structure RingBuffer where
  data : List ℚ
  cursor : Nat
  isFull : Bool
  maxSize : Nat

def RingBuffer.empty (maxSize : Nat) : RingBuffer := ⟨[], 0, false, maxSize⟩

/-- `RingBuffer.append`. -/
def RingBuffer.append (b : RingBuffer) (x : ℚ) : RingBuffer :=
  if b.isFull then
    { b with data := b.data.set b.cursor x,
             cursor := (b.cursor + 1) % b.maxSize }
  else
    let data := b.data ++ [x]
    if data.length = b.maxSize then ⟨data, 0, true, b.maxSize⟩
    else ⟨data, b.cursor + 1, false, b.maxSize⟩

/-- `RingBuffer.size`. -/
def RingBuffer.size (b : RingBuffer) : Nat :=
  if b.isFull then b.maxSize else b.cursor

/-- `RingBuffer.avg`: `data.reduce(+) / size` (the division by zero the
model makes total is unreachable: `avg` is only called right after an
`append`). -/
def RingBuffer.avg (b : RingBuffer) : ℚ :=
  b.data.sum / (b.size : ℚ)

/-- `RingBuffer.clear`. -/
def RingBuffer.clear (b : RingBuffer) : RingBuffer := ⟨[], 0, false, b.maxSize⟩

/-- `toFixed(num, 8)` followed by `parseFloat`: round to the nearest
multiple of `10^-8`, ties toward the larger value, as `Number.toFixed`
specifies. -/
def jsToFixed8 (q : ℚ) : ℚ :=
  ((⌊q * 100000000 + 1 / 2⌋ : ℤ) : ℚ) / 100000000

/-- `ddiff * d < m` where `ddiff` may be non-finite (`+Infinity · d` is
below a finite `m` only for negative `d`; `0 · Infinity` is NaN, which
compares false). -/
def jsMulLt (o : Option ℚ) (d m : ℚ) : Bool :=
  match o with
  | some q => decide (q * d < m)
  | none => decide (d < 0)

/-- `ddiff * d > m` with a possibly non-finite `ddiff`. -/
def jsMulGt (o : Option ℚ) (d m : ℚ) : Bool :=
  match o with
  | some q => decide (m < q * d)
  | none => decide (0 < d)

/-- The per-port retarget configuration. -/
structure VarDiffOptions where
  minDiff : ℚ
  maxDiff : ℚ
  targetTime : ℚ
  retargetTime : ℚ
  variancePercent : ℚ
  x2mode : Bool

def vdVariance (o : VarDiffOptions) : ℚ :=
  o.targetTime * (o.variancePercent / 100)

def vdTMin (o : VarDiffOptions) : ℚ := o.targetTime - vdVariance o

def vdTMax (o : VarDiffOptions) : ℚ := o.targetTime + vdVariance o

/-- The per-client closure state of `manageClient`. -/
structure VarDiffClientState where
  lastTs : ℚ
  lastRtc : ℚ
  timeBuffer : RingBuffer

/-- One `submit` event.  Returns the new state and, when a retarget fires,
`some newDiff` (`newDiff : Option ℚ`, `none` for a non-finite value —
unreachable under the theorems' hypotheses). -/
def varDiffStep (o : VarDiffOptions) (bufferSize : Nat)
    (st : Option VarDiffClientState) (ts clientDiff : ℚ) :
    Option VarDiffClientState × Option (Option ℚ) :=
  match st with
  | none =>
      (some ⟨ts, ts - o.retargetTime / 2, RingBuffer.empty bufferSize⟩, none)
  | some s =>
      let buf := s.timeBuffer.append (ts - s.lastTs)
      if ts - s.lastRtc < o.retargetTime ∧ 0 < buf.size then
        (some ⟨ts, s.lastRtc, buf⟩, none)
      else
        let avg := buf.avg
        let ddiff : Option ℚ :=
          if avg = 0 then none else some (o.targetTime / avg)
        if vdTMax o < avg ∧ o.minDiff < clientDiff then
          let dd1 : Option ℚ := if o.x2mode then some (1 / 2) else ddiff
          let dd2 : Option ℚ :=
            if jsMulLt dd1 clientDiff o.minDiff then
              some (o.minDiff / clientDiff)
            else dd1
          (some ⟨ts, ts, buf.clear⟩,
            some ((dd2.map (fun q => clientDiff * q)).map jsToFixed8))
        else if avg < vdTMin o then
          let dd1 : Option ℚ := if o.x2mode then some 2 else ddiff
          let dd2 : Option ℚ :=
            if jsMulGt dd1 clientDiff o.maxDiff then
              some (o.maxDiff / clientDiff)
            else dd1
          (some ⟨ts, ts, buf.clear⟩,
            some ((dd2.map (fun q => clientDiff * q)).map jsToFixed8))
        else
          (some ⟨ts, ts, buf⟩, none)

/-- A sequence of submit events `(timestamp, current client difficulty)`;
collects the emitted `newDifficulty` events as `(timestamp, value)`. -/
def varDiffRun (o : VarDiffOptions) (bufferSize : Nat) :
    Option VarDiffClientState → List (ℚ × ℚ) → List (ℚ × Option ℚ)
  | _, [] => []
  | st, (ts, d) :: rest =>
      match varDiffStep o bufferSize st ts d with
      | (st2, some e) => (ts, e) :: varDiffRun o bufferSize st2 rest
      | (st2, none) => varDiffRun o bufferSize st2 rest

/-- Well-formedness the buffer maintains from `empty` through `append` and
`clear`. -/
def RingBuffer.WF (b : RingBuffer) : Prop :=
  (b.isFull = true → b.data.length = b.maxSize ∧ 0 < b.maxSize) ∧
  (b.isFull = false → b.cursor = b.data.length)

theorem RingBuffer.empty_wf (n : Nat) : (RingBuffer.empty n).WF := by
  constructor
  · intro h
    simp [RingBuffer.empty] at h
  · intro _
    rfl

theorem RingBuffer.append_wf (b : RingBuffer) (x : ℚ) (h : b.WF) :
    (b.append x).WF := by
  obtain ⟨hfull, hnot⟩ := h
  unfold RingBuffer.append
  by_cases hb : b.isFull
  · rw [if_pos hb]
    obtain ⟨hlen, hpos⟩ := hfull hb
    constructor
    · intro _
      simp only [List.length_set]
      exact ⟨hlen, hpos⟩
    · intro hc
      simp only at hc
      rw [hb] at hc
      cases hc
  · rw [if_neg hb]
    by_cases hfull2 : (b.data ++ [x]).length = b.maxSize
    · rw [if_pos hfull2]
      constructor
      · intro _
        refine ⟨hfull2, ?_⟩
        rw [← hfull2]
        simp
      · intro hc
        cases hc
    · rw [if_neg hfull2]
      constructor
      · intro hc
        cases hc
      · intro _
        have := hnot (by simpa using hb)
        simp [this]

theorem RingBuffer.clear_wf (b : RingBuffer) : b.clear.WF := by
  constructor
  · intro h
    simp [RingBuffer.clear] at h
  · intro _
    rfl

/-- After an `append` the size is positive. -/
theorem RingBuffer.append_size_pos (b : RingBuffer) (x : ℚ) (h : b.WF) :
    0 < (b.append x).size := by
  obtain ⟨hfull, hnot⟩ := h
  unfold RingBuffer.append RingBuffer.size
  by_cases hb : b.isFull
  · rw [if_pos hb]
    simp only [hb, if_pos]
    exact (hfull hb).2
  · rw [if_neg hb]
    by_cases hfull2 : (b.data ++ [x]).length = b.maxSize
    · rw [if_pos hfull2]
      simp only [if_pos rfl]
      rw [← hfull2]
      simp
    · rw [if_neg hfull2]
      simp

/-- Elements after an `append`. -/
theorem RingBuffer.append_mem (b : RingBuffer) (x y : ℚ)
    (hy : y ∈ (b.append x).data) : y ∈ b.data ∨ y = x := by
  unfold RingBuffer.append at hy
  by_cases hb : b.isFull
  · rw [if_pos hb] at hy
    simp only at hy
    rcases List.mem_or_eq_of_mem_set hy with h | h
    · exact Or.inl h
    · exact Or.inr h
  · rw [if_neg hb] at hy
    by_cases hfull2 : (b.data ++ [x]).length = b.maxSize
    · rw [if_pos hfull2] at hy
      simp only at hy
      rcases List.mem_append.mp hy with h | h
      · exact Or.inl h
      · exact Or.inr (by simpa using h)
    · rw [if_neg hfull2] at hy
      simp only at hy
      rcases List.mem_append.mp hy with h | h
      · exact Or.inl h
      · exact Or.inr (by simpa using h)

/-- The average of nonnegative intervals is nonnegative. -/
theorem RingBuffer.avg_nonneg (b : RingBuffer) (h : ∀ x ∈ b.data, 0 ≤ x) :
    0 ≤ b.avg := by
  unfold RingBuffer.avg
  apply div_nonneg
  · exact List.sum_nonneg h
  · positivity

theorem jsToFixed8_mono {a b : ℚ} (h : a ≤ b) : jsToFixed8 a ≤ jsToFixed8 b := by
  unfold jsToFixed8
  have hfl : ⌊a * 100000000 + 1 / 2⌋ ≤ ⌊b * 100000000 + 1 / 2⌋ := by
    apply Int.floor_le_floor
    nlinarith
  have h8 : (0 : ℚ) < 100000000 := by norm_num
  exact (div_le_div_iff_of_pos_right h8).mpr (by exact_mod_cast hfl)

/-- The decrease branch emits a value in `[minDiff, maxDiff]`: the scale
factor is strictly below 1, and the explicit clamp lifts the product to
exactly `minDiff`. -/
theorem decNewDiff_bounds (o : VarDiffOptions) (cd : ℚ) (dd1 : Option ℚ)
    (hgmin : jsToFixed8 o.minDiff = o.minDiff)
    (hgmax : jsToFixed8 o.maxDiff = o.maxDiff)
    (hmin : 0 < o.minDiff) (hlt : o.minDiff < cd) (hle : cd ≤ o.maxDiff)
    (hdd : ∃ q, dd1 = some q ∧ 0 < q ∧ q < 1) :
    ∃ d, ((if jsMulLt dd1 cd o.minDiff then some (o.minDiff / cd)
        else dd1).map (fun q => cd * q)).map jsToFixed8 = some d ∧
      o.minDiff ≤ d ∧ d ≤ o.maxDiff := by
  obtain ⟨q, rfl, hq0, hq1⟩ := hdd
  have hcd : 0 < cd := lt_trans hmin hlt
  have hclamp : cd * (o.minDiff / cd) = o.minDiff := by
    field_simp
  by_cases hcl : q * cd < o.minDiff
  · rw [if_pos (by simp [jsMulLt, hcl])]
    refine ⟨jsToFixed8 (cd * (o.minDiff / cd)), rfl, ?_, ?_⟩
    · rw [hclamp, hgmin]
    · rw [hclamp, hgmin]
      linarith
  · rw [if_neg (by simp [jsMulLt, hcl])]
    refine ⟨jsToFixed8 (cd * q), rfl, ?_, ?_⟩
    · have hprod : o.minDiff ≤ cd * q := by
        push_neg at hcl
        linarith [hcl, mul_comm q cd]
      calc o.minDiff = jsToFixed8 o.minDiff := hgmin.symm
        _ ≤ jsToFixed8 (cd * q) := jsToFixed8_mono hprod
    · have hprod : cd * q ≤ o.maxDiff := by nlinarith
      calc jsToFixed8 (cd * q) ≤ jsToFixed8 o.maxDiff := jsToFixed8_mono hprod
        _ = o.maxDiff := hgmax

/-- The increase branch emits a value in `[minDiff, maxDiff]`: the scale
factor exceeds 1 (or is +Infinity, when the clamp necessarily fires), and
the clamp caps the product at exactly `maxDiff`. -/
theorem incNewDiff_bounds (o : VarDiffOptions) (cd : ℚ) (dd1 : Option ℚ)
    (hgmin : jsToFixed8 o.minDiff = o.minDiff)
    (hgmax : jsToFixed8 o.maxDiff = o.maxDiff)
    (hmin : 0 < o.minDiff) (hcd1 : o.minDiff ≤ cd) (hcd2 : cd ≤ o.maxDiff)
    (hdd : dd1 = none ∨ ∃ q, dd1 = some q ∧ 1 < q) :
    ∃ d, ((if jsMulGt dd1 cd o.maxDiff then some (o.maxDiff / cd)
        else dd1).map (fun q => cd * q)).map jsToFixed8 = some d ∧
      o.minDiff ≤ d ∧ d ≤ o.maxDiff := by
  have hcd : 0 < cd := lt_of_lt_of_le hmin hcd1
  have hclamp : cd * (o.maxDiff / cd) = o.maxDiff := by
    field_simp
  have hminmax : o.minDiff ≤ o.maxDiff := le_trans hcd1 hcd2
  rcases hdd with rfl | ⟨q, rfl, hq1⟩
  · rw [if_pos (by simp [jsMulGt, hcd])]
    refine ⟨jsToFixed8 (cd * (o.maxDiff / cd)), rfl, ?_, ?_⟩
    · rw [hclamp, hgmax]
      linarith
    · rw [hclamp, hgmax]
  · by_cases hcl : o.maxDiff < q * cd
    · rw [if_pos (by simp [jsMulGt, hcl])]
      refine ⟨jsToFixed8 (cd * (o.maxDiff / cd)), rfl, ?_, ?_⟩
      · rw [hclamp, hgmax]
        linarith
      · rw [hclamp, hgmax]
    · rw [if_neg (by simp [jsMulGt, hcl])]
      refine ⟨jsToFixed8 (cd * q), rfl, ?_, ?_⟩
      · have hprod : o.minDiff ≤ cd * q := by nlinarith
        calc o.minDiff = jsToFixed8 o.minDiff := hgmin.symm
          _ ≤ jsToFixed8 (cd * q) := jsToFixed8_mono hprod
      · have hprod : cd * q ≤ o.maxDiff := by
          push_neg at hcl
          linarith [hcl, mul_comm q cd]
        calc jsToFixed8 (cd * q) ≤ jsToFixed8 o.maxDiff := jsToFixed8_mono hprod
          _ = o.maxDiff := hgmax

theorem vdTMax_ge (o : VarDiffOptions) (htt : 0 < o.targetTime)
    (hvp : 0 ≤ o.variancePercent) : o.targetTime ≤ vdTMax o := by
  unfold vdTMax vdVariance
  nlinarith

theorem vdTMin_le (o : VarDiffOptions) (htt : 0 < o.targetTime)
    (hvp : 0 ≤ o.variancePercent) : vdTMin o ≤ o.targetTime := by
  unfold vdTMin vdVariance
  nlinarith

/-- One submit on an established client state: the new state keeps the
invariants, `lastRtc` never decreases and stays at or below the current
timestamp, and any emitted retarget is spaced `retargetTime` after the
previous `lastRtc`, sets `lastRtc` to the emit time, and carries a new
difficulty inside `[minDiff, maxDiff]`. -/
theorem varDiffStep_sound (o : VarDiffOptions) (bufferSize : Nat)
    (s : VarDiffClientState) (ts cd : ℚ)
    (hgmin : jsToFixed8 o.minDiff = o.minDiff)
    (hgmax : jsToFixed8 o.maxDiff = o.maxDiff)
    (htt : 0 < o.targetTime) (hvp : 0 ≤ o.variancePercent)
    (hmin : 0 < o.minDiff) (hcd1 : o.minDiff ≤ cd) (hcd2 : cd ≤ o.maxDiff)
    (hmem : ∀ x ∈ s.timeBuffer.data, 0 ≤ x) (hwf : s.timeBuffer.WF)
    (hrtc : s.lastRtc ≤ s.lastTs) (hts : s.lastTs ≤ ts) :
    ∃ s2, (varDiffStep o bufferSize (some s) ts cd).1 = some s2 ∧
      (∀ x ∈ s2.timeBuffer.data, 0 ≤ x) ∧ s2.timeBuffer.WF ∧
      s2.lastTs = ts ∧ s.lastRtc ≤ s2.lastRtc ∧ s2.lastRtc ≤ ts ∧
      ((varDiffStep o bufferSize (some s) ts cd).2 = none ∨
        (∃ e, (varDiffStep o bufferSize (some s) ts cd).2 = some e ∧
          s2.lastRtc = ts ∧ s.lastRtc + o.retargetTime ≤ ts ∧
          ∃ d, e = some d ∧ o.minDiff ≤ d ∧ d ≤ o.maxDiff)) := by
  have hbufmem : ∀ x ∈ (s.timeBuffer.append (ts - s.lastTs)).data, 0 ≤ x := by
    intro x hx
    rcases RingBuffer.append_mem _ _ _ hx with h | rfl
    · exact hmem x h
    · linarith
  have hbufwf := RingBuffer.append_wf s.timeBuffer (ts - s.lastTs) hwf
  have hbufsize := RingBuffer.append_size_pos s.timeBuffer (ts - s.lastTs) hwf
  have havg := RingBuffer.avg_nonneg _ hbufmem
  unfold varDiffStep
  dsimp only
  by_cases hg : ts - s.lastRtc < o.retargetTime ∧
      0 < (s.timeBuffer.append (ts - s.lastTs)).size
  · rw [if_pos hg]
    exact ⟨⟨ts, s.lastRtc, s.timeBuffer.append (ts - s.lastTs)⟩, rfl,
      hbufmem, hbufwf, rfl, le_refl _, le_trans hrtc hts, Or.inl rfl⟩
  · rw [if_neg hg]
    have hspace : s.lastRtc + o.retargetTime ≤ ts := by
      rcases not_and_or.mp hg with h | h
      · push_neg at h
        linarith
      · exact absurd hbufsize h
    by_cases hdec : vdTMax o <
        (s.timeBuffer.append (ts - s.lastTs)).avg ∧ o.minDiff < cd
    · rw [if_pos hdec]
      refine ⟨⟨ts, ts, (s.timeBuffer.append (ts - s.lastTs)).clear⟩, rfl,
        by simp [RingBuffer.clear], RingBuffer.clear_wf _, rfl,
        le_trans hrtc hts, le_refl _, Or.inr ?_⟩
      have havgpos : 0 < (s.timeBuffer.append (ts - s.lastTs)).avg :=
        lt_of_le_of_lt (le_trans (le_of_lt htt) (vdTMax_ge o htt hvp)) hdec.1
      have hdd : ∃ q, (if o.x2mode then some ((1 : ℚ) / 2)
          else if (s.timeBuffer.append (ts - s.lastTs)).avg = 0 then none
          else some (o.targetTime / (s.timeBuffer.append (ts - s.lastTs)).avg)) =
            some q ∧ 0 < q ∧ q < 1 := by
        by_cases hx2 : o.x2mode
        · exact ⟨1 / 2, by rw [if_pos hx2], by norm_num, by norm_num⟩
        · refine ⟨o.targetTime / (s.timeBuffer.append (ts - s.lastTs)).avg,
            ?_, ?_, ?_⟩
          · rw [if_neg hx2, if_neg (by positivity)]
          · exact div_pos htt havgpos
          · rw [div_lt_one havgpos]
            exact lt_of_le_of_lt (vdTMax_ge o htt hvp) hdec.1
      obtain ⟨d, hd, hd1, hd2⟩ := decNewDiff_bounds o cd _ hgmin hgmax hmin
        hdec.2 (le_trans hcd2 (le_refl _)) hdd
      exact ⟨_, rfl, rfl, hspace, d, hd, hd1, hd2⟩
    · rw [if_neg hdec]
      by_cases hinc : (s.timeBuffer.append (ts - s.lastTs)).avg < vdTMin o
      · rw [if_pos hinc]
        refine ⟨⟨ts, ts, (s.timeBuffer.append (ts - s.lastTs)).clear⟩, rfl,
          by simp [RingBuffer.clear], RingBuffer.clear_wf _, rfl,
          le_trans hrtc hts, le_refl _, Or.inr ?_⟩
        have hdd : (if o.x2mode then some (2 : ℚ)
            else if (s.timeBuffer.append (ts - s.lastTs)).avg = 0 then none
            else some (o.targetTime /
              (s.timeBuffer.append (ts - s.lastTs)).avg)) = none ∨
            ∃ q, (if o.x2mode then some (2 : ℚ)
            else if (s.timeBuffer.append (ts - s.lastTs)).avg = 0 then none
            else some (o.targetTime /
              (s.timeBuffer.append (ts - s.lastTs)).avg)) = some q ∧ 1 < q := by
          by_cases hx2 : o.x2mode
          · exact Or.inr ⟨2, by rw [if_pos hx2], by norm_num⟩
          · by_cases havg0 : (s.timeBuffer.append (ts - s.lastTs)).avg = 0
            · exact Or.inl (by rw [if_neg hx2, if_pos havg0])
            · refine Or.inr ⟨o.targetTime /
                (s.timeBuffer.append (ts - s.lastTs)).avg,
                by rw [if_neg hx2, if_neg havg0], ?_⟩
              have havgpos : 0 < (s.timeBuffer.append (ts - s.lastTs)).avg :=
                lt_of_le_of_ne havg (Ne.symm havg0)
              rw [one_lt_div havgpos]
              exact lt_of_lt_of_le hinc (vdTMin_le o htt hvp)
        obtain ⟨d, hd, hd1, hd2⟩ := incNewDiff_bounds o cd _ hgmin hgmax hmin
          hcd1 hcd2 hdd
        exact ⟨_, rfl, rfl, hspace, d, hd, hd1, hd2⟩
      · rw [if_neg hinc]
        exact ⟨⟨ts, ts, s.timeBuffer.append (ts - s.lastTs)⟩, rfl, hbufmem,
          hbufwf, rfl, le_trans hrtc hts, le_refl _, Or.inl rfl⟩

/-- Soundness of a run from an established client state: every emitted
retarget carries a difficulty in `[minDiff, maxDiff]` and is at least
`retargetTime` after the state's `lastRtc`; consecutive emits are at least
`retargetTime` apart. -/
theorem varDiffRun_sound (o : VarDiffOptions) (bufferSize : Nat)
    (hgmin : jsToFixed8 o.minDiff = o.minDiff)
    (hgmax : jsToFixed8 o.maxDiff = o.maxDiff)
    (htt : 0 < o.targetTime) (hvp : 0 ≤ o.variancePercent)
    (hmin : 0 < o.minDiff) :
    ∀ (inputs : List (ℚ × ℚ)) (s : VarDiffClientState),
      (∀ x ∈ s.timeBuffer.data, 0 ≤ x) → s.timeBuffer.WF →
      s.lastRtc ≤ s.lastTs →
      List.Pairwise (fun p q => p.1 ≤ q.1) inputs →
      (∀ p ∈ inputs, s.lastTs ≤ p.1) →
      (∀ p ∈ inputs, o.minDiff ≤ p.2 ∧ p.2 ≤ o.maxDiff) →
      (∀ p ∈ varDiffRun o bufferSize (some s) inputs,
          (∃ d, p.2 = some d ∧ o.minDiff ≤ d ∧ d ≤ o.maxDiff) ∧
          s.lastRtc + o.retargetTime ≤ p.1) ∧
      List.Chain' (fun p q => p.1 + o.retargetTime ≤ q.1)
        (varDiffRun o bufferSize (some s) inputs) := by
  intro inputs
  induction inputs with
  | nil =>
    intro s _ _ _ _ _ _
    exact ⟨by simp [varDiffRun], by simp [varDiffRun]⟩
  | cons hd rest ih =>
    obtain ⟨ts, d⟩ := hd
    intro s hsmem hswf hsrtc hpw hfirst hdiff
    obtain ⟨s2, hs1, hmem2, hwf2, hlastTs2, hrtc_mono, hrtc_le, hemit⟩ :=
      varDiffStep_sound o bufferSize s ts d hgmin hgmax htt hvp hmin
        (hdiff (ts, d) (List.mem_cons_self _ _)).1
        (hdiff (ts, d) (List.mem_cons_self _ _)).2
        hsmem hswf hsrtc (hfirst (ts, d) (List.mem_cons_self _ _))
    have hpwparts := List.pairwise_cons.mp hpw
    have hfirst2 : ∀ q ∈ rest, s2.lastTs ≤ q.1 := by
      intro q hq
      rw [hlastTs2]
      exact hpwparts.1 q hq
    have hdiff2 : ∀ q ∈ rest, o.minDiff ≤ q.2 ∧ q.2 ≤ o.maxDiff :=
      fun q hq => hdiff q (List.mem_cons_of_mem _ hq)
    have hih := ih s2 hmem2 hwf2 (hlastTs2 ▸ hrtc_le) hpwparts.2 hfirst2 hdiff2
    rcases hemit with hnone | ⟨e, hsome, hrtc_eq, hspace, d0, hd0, hd01, hd02⟩
    · have hpair : varDiffStep o bufferSize (some s) ts d = (some s2, none) := by
        rw [← hs1, ← hnone]
      have hrun : varDiffRun o bufferSize (some s) ((ts, d) :: rest) =
          varDiffRun o bufferSize (some s2) rest := by
        simp only [varDiffRun, hpair]
      rw [hrun]
      refine ⟨fun p hp => ?_, hih.2⟩
      obtain ⟨hb, hsp⟩ := hih.1 p hp
      refine ⟨hb, ?_⟩
      have := hrtc_mono
      linarith
    · have hpair : varDiffStep o bufferSize (some s) ts d =
          (some s2, some e) := by
        rw [← hs1, ← hsome]
      have hrun : varDiffRun o bufferSize (some s) ((ts, d) :: rest) =
          (ts, e) :: varDiffRun o bufferSize (some s2) rest := by
        simp only [varDiffRun, hpair]
      rw [hrun]
      constructor
      · intro p hp
        rcases List.mem_cons.mp hp with rfl | hp
        · exact ⟨⟨d0, hd0, hd01, hd02⟩, hspace⟩
        · obtain ⟨hb, hsp⟩ := hih.1 p hp
          refine ⟨hb, ?_⟩
          rw [hrtc_eq] at hsp
          have hle : s.lastRtc ≤ ts := by linarith
          linarith
      · rw [List.chain'_cons']
        refine ⟨?_, hih.2⟩
        intro q hq
        cases htail : varDiffRun o bufferSize (some s2) rest with
        | nil =>
          rw [htail] at hq
          simp at hq
        | cons q0 l =>
          rw [htail] at hq
          simp only [List.head?_cons, Option.mem_def, Option.some.injEq] at hq
          subst hq
          have hq0 := (hih.1 q0 (by rw [htail]; exact List.mem_cons_self _ _)).2
          rw [hrtc_eq] at hq0
          exact hq0

/-- C9, confirmed.  For every run of the vardiff controller over
chronologically ordered submits whose current client difficulty stays in
`[minDiff, maxDiff]` (with `minDiff, maxDiff` representable in 8 decimal
places, positive `targetTime` and `minDiff`, nonnegative `variancePercent`
and `retargetTime`): every emitted retarget difficulty again lies in
`[minDiff, maxDiff]` — the decrease branch clamps to at least `minDiff`,
the increase branch to at most `maxDiff` — and any two consecutive emitted
retargets are at least `retargetTime` apart. -/
theorem C9_vardiff_clamps (o : VarDiffOptions) (bufferSize : Nat)
    (inputs : List (ℚ × ℚ))
    (hgmin : jsToFixed8 o.minDiff = o.minDiff)
    (hgmax : jsToFixed8 o.maxDiff = o.maxDiff)
    (htt : 0 < o.targetTime) (hvp : 0 ≤ o.variancePercent)
    (hrt : 0 ≤ o.retargetTime) (hmin : 0 < o.minDiff)
    (hpw : List.Pairwise (fun p q => p.1 ≤ q.1) inputs)
    (hdiff : ∀ p ∈ inputs, o.minDiff ≤ p.2 ∧ p.2 ≤ o.maxDiff) :
    (∀ p ∈ varDiffRun o bufferSize none inputs,
        ∃ d, p.2 = some d ∧ o.minDiff ≤ d ∧ d ≤ o.maxDiff) ∧
    List.Chain' (fun p q => p.1 + o.retargetTime ≤ q.1)
      (varDiffRun o bufferSize none inputs) := by
  cases inputs with
  | nil => exact ⟨by simp [varDiffRun], by simp [varDiffRun]⟩
  | cons hd rest =>
    obtain ⟨ts, d⟩ := hd
    have hpair : varDiffStep o bufferSize none ts d =
        (some ⟨ts, ts - o.retargetTime / 2, RingBuffer.empty bufferSize⟩,
          none) := rfl
    have hrun : varDiffRun o bufferSize none ((ts, d) :: rest) =
        varDiffRun o bufferSize (some ⟨ts, ts - o.retargetTime / 2,
          RingBuffer.empty bufferSize⟩) rest := by
      simp only [varDiffRun, hpair]
    rw [hrun]
    have hpwparts := List.pairwise_cons.mp hpw
    have h := varDiffRun_sound o bufferSize hgmin hgmax htt hvp hmin rest
      ⟨ts, ts - o.retargetTime / 2, RingBuffer.empty bufferSize⟩
      (by simp [RingBuffer.empty]) (RingBuffer.empty_wf _) (by
        simp only
        linarith)
      hpwparts.2 (by
        intro q hq
        simp only
        exact hpwparts.1 q hq)
      (fun q hq => hdiff q (List.mem_cons_of_mem _ hq))
    exact ⟨fun p hp => (h.1 p hp).1, h.2⟩

theorem jsToFixed8_intCast (n : ℤ) : jsToFixed8 (n : ℚ) = n := by
  unfold jsToFixed8
  have h : ⌊(n : ℚ) * 100000000 + 1 / 2⌋ = n * 100000000 := by
    rw [Int.floor_eq_iff]
    constructor
    · push_cast
      linarith
    · push_cast
      linarith
  rw [h]
  push_cast
  field_simp

/-- C9 witness: a two-submit run on a port configured `minDiff = 8`,
`maxDiff = 512`, `targetTime = 10`, `retargetTime = 90`,
`variancePercent = 30`. -/
theorem C9_vardiff_clamps_witness :
    (∀ p ∈ varDiffRun ⟨8, 512, 10, 90, 30, false⟩ 36 none
        [((100 : ℚ), (16 : ℚ)), ((300 : ℚ), (16 : ℚ))],
        ∃ d, p.2 = some d ∧ (8 : ℚ) ≤ d ∧ d ≤ 512) ∧
    List.Chain' (fun p q => p.1 + (90 : ℚ) ≤ q.1)
      (varDiffRun ⟨8, 512, 10, 90, 30, false⟩ 36 none
        [((100 : ℚ), (16 : ℚ)), ((300 : ℚ), (16 : ℚ))]) :=
  C9_vardiff_clamps ⟨8, 512, 10, 90, 30, false⟩ 36
    [((100 : ℚ), (16 : ℚ)), ((300 : ℚ), (16 : ℚ))]
    (by simpa using jsToFixed8_intCast 8)
    (by simpa using jsToFixed8_intCast 512)
    (by norm_num) (by norm_num) (by norm_num) (by norm_num)
    (by
      simp only [List.pairwise_cons, List.mem_cons, List.not_mem_nil]
      norm_num)
    (by
      intro p hp
      rcases List.mem_cons.mp hp with rfl | hp
      · norm_num
      · rcases List.mem_cons.mp hp with rfl | hp
        · norm_num
        · exact absurd hp (List.not_mem_nil _))

end StratumPool
